import Mathlib

/-!
Verification of DepEdit (`depedit/depedit.py`, version 2.1.2) against its
natural-language specification.  The program is embedded shallowly: Python
strings become `String`/`List Char`, Python ints become `Int`/`Nat`, mutable
objects become explicit state records, uncaught exceptions and `sys.exit`
become `Except` errors.  Each embedded definition cites the source lines it
translates.
-/

namespace DepEdit

/-! ## Python string primitives -/

/-- Python `str.replace(pat, rep)` over character lists: every non-overlapping
occurrence of the (nonempty) pattern is replaced, scanning left to right.
Structural recursion on fuel (each step consumes at least one character, so
the input length is enough fuel) keeps the definition kernel-reducible. -/
def pyReplaceAux (pat rep : List Char) : Nat → List Char → List Char
  | 0, l => l
  | _ + 1, [] => []
  | fuel + 1, c :: rest =>
    if pat ≠ [] ∧ pat.isPrefixOf (c :: rest) then
      rep ++ pyReplaceAux pat rep fuel (rest.drop (pat.length - 1))
    else
      c :: pyReplaceAux pat rep fuel rest

def pyReplaceL (pat rep l : List Char) : List Char :=
  pyReplaceAux pat rep l.length l

/-- Python `str.replace` on `String`. -/
def pyReplace (s pat rep : String) : String :=
  ⟨pyReplaceL pat.toList rep.toList s.toList⟩

/-- Substring scan over character lists. -/
def listInfix (pat : List Char) : List Char → Bool
  | [] => pat.isEmpty
  | c :: rest => pat.isPrefixOf (c :: rest) || listInfix pat rest

/-- Python `pat in s` (substring containment). -/
def pyInStr (pat s : String) : Bool :=
  listInfix pat.toList s.toList

/-- Python whitespace for `str.strip`. -/
def isPySpace (c : Char) : Bool :=
  c = ' ' || c = '\t' || c = '\n' || c = '\r' || c = '\x0b' || c = '\x0c'

/-- Python `str.strip()`. -/
def pyStrip (s : String) : String :=
  ⟨((s.toList.dropWhile isPySpace).reverse.dropWhile isPySpace).reverse⟩

/-- Python `s.split(sep)` for a one-character separator: empty parts kept,
`"".split(sep) = [""]`. -/
def pySplit (s : String) (sep : Char) : List String :=
  (s.toList.splitOn sep).map fun l => ⟨l⟩

/-- Python `s.split(sep, 1)` for a one-character separator. -/
def pySplit1 (s : String) (sep : Char) : List String :=
  match s.toList.splitOn sep with
  | [] => [s]
  | [x] => [⟨x⟩]
  | x :: rest => [⟨x⟩, ⟨(rest.map (sep :: ·)).flatten.drop 1⟩]

/-- Python `s.startswith(p)`. -/
def pyStartsWith (s p : String) : Bool :=
  p.toList.isPrefixOf s.toList

/-- Python `s.find(c)` for a single character: first index, or -1. -/
def pyFind (s : String) (c : Char) : Int :=
  match s.toList.findIdx? (· = c) with
  | some i => (i : Int)
  | none => -1

/-- Python `s.rfind(c)` for a single character: last index, or -1. -/
def pyRFind (s : String) (c : Char) : Int :=
  match s.toList.reverse.findIdx? (· = c) with
  | some i => ((s.toList.length - 1 - i : Nat) : Int)
  | none => -1

/-- Python slice `s[a:b]` with nonnegative bounds. -/
def pySlice (s : String) (a b : Nat) : String :=
  ⟨(s.toList.take b).drop a⟩

/-- Python slice `s[1:-1]` (total: short strings give `""`). -/
def pySliceInner (s : String) : String :=
  ⟨(s.toList.drop 1).dropLast⟩

/-- `escape` (depedit.py lines 27-35): mask `symbol_to_mask` with `%%%%%`
while inside a `border_marker`-delimited region.  The `inside` flag is toggled
by the border before the mask test, exactly as in the source loop. -/
def escapeL (mask border : Char) : List Char → Bool → List Char
  | [], _ => []
  | c :: rest, inside =>
    let inside2 := if c = border then !inside else inside
    (if c = mask ∧ inside2 then "%%%%%".toList else [c]) ++ escapeL mask border rest inside2

/-- `escape` on `String`, starting outside a regex region. -/
def escapeStr (s : String) (mask border : Char) : String :=
  ⟨escapeL mask border s.toList false⟩

/-! ## Python numeric coercions -/

/-- Value of a digit run (`none` when empty or a non-digit appears). -/
def digitsVal : List Char → Option Nat
  | [] => none
  | l =>
    if l.all (·.isDigit) then
      some (l.foldl (fun acc c => acc * 10 + (c.toNat - 48)) 0)
    else none

/-- Python `int(s)` for optionally signed digit strings; `none` models
`ValueError`. -/
def pyInt (s : String) : Option Int :=
  match s.toList with
  | '-' :: rest => (digitsVal rest).map fun n => -(n : Int)
  | '+' :: rest => (digitsVal rest).map fun n => (n : Int)
  | l => (digitsVal l).map fun n => (n : Int)

/-- Python `int(float(s))` for plain decimal literals (`"3"`, `"3.5"`,
`"-2.0"`, `".5"`, `"4."`): truncation toward zero keeps just the integer
part.  `none` models `ValueError` (exponent forms are outside the modelled
input space). -/
def pyIntFloat (s : String) : Option Int :=
  let core : List Char → Option Int := fun l =>
    let ip := l.takeWhile (·.isDigit)
    let rest := l.drop ip.length
    let frac : Option (List Char) :=
      match rest with
      | [] => some []
      | '.' :: fr => if fr.all (·.isDigit) then some fr else none
      | _ => none
    match frac with
    | none => none
    | some fr =>
      if ip = [] ∧ fr = [] then none
      else some ((ip.foldl (fun acc c => acc * 10 + (c.toNat - 48)) 0 : Nat) : Int)
  match s.toList with
  | '-' :: rest => (core rest).map (fun n => -n)
  | '+' :: rest => core rest
  | l => core l

/-- Python list indexing `l[i]` with negative-index wraparound; `none` models
`IndexError`. -/
def pyGetIdx {α : Type} (l : List α) (i : Int) : Option α :=
  if i ≥ 0 then l[i.toNat]?
  else if (l.length : Int) + i ≥ 0 then l[((l.length : Int) + i).toNat]?
  else none

/-! ## Token model (`ParsedToken`, lines 38-57) -/

/-- The canonical token fields reachable by `getattr` at match/action time:
the ten CoNLL fields plus the `position` pseudo-field.  (`child_funcs` is dead
state—always `[]`, never read—and is omitted; the `sentence` back-pointer is
modelled by keeping the annotations in the sentence state.)  `lemma` is a Lean
keyword, so the field/constructor is spelled `lemm`. -/
inductive Field where
  | ftext | fpos | fcpos | flemma | fmorph | fhead | ffunc | fhead2 | ffunc2 | fnum | fposition
deriving DecidableEq, Repr

/-- `ParsedToken` (lines 38-54): all fields are strings, as in the source. -/
structure Tok where
  id : String
  text : String
  lemm : String
  pos : String
  cpos : String
  morph : String
  head : String
  func : String
  head2 : String
  func2 : String
  num : String
  position : String
  is_super_tok : Bool
deriving DecidableEq, Repr

/-- Python `getattr(token, field)` for the modelled fields. -/
def Tok.getattrF (t : Tok) : Field → String
  | .ftext => t.text
  | .fpos => t.pos
  | .fcpos => t.cpos
  | .flemma => t.lemm
  | .fmorph => t.morph
  | .fhead => t.head
  | .ffunc => t.func
  | .fhead2 => t.head2
  | .ffunc2 => t.func2
  | .fnum => t.num
  | .fposition => t.position

/-- Python `setattr(token, field, v)` for the modelled fields. -/
def Tok.setattrF (t : Tok) (f : Field) (v : String) : Tok :=
  match f with
  | .ftext => { t with text := v }
  | .fpos => { t with pos := v }
  | .fcpos => { t with cpos := v }
  | .flemma => { t with lemm := v }
  | .fmorph => { t with morph := v }
  | .fhead => { t with head := v }
  | .ffunc => { t with func := v }
  | .fhead2 => { t with head2 := v }
  | .ffunc2 => { t with func2 := v }
  | .fnum => { t with num := v }
  | .fposition => { t with position := v }

/-- Canonical field-name strings as resolved by `getattr` (lines 191, 418):
aliases are NOT resolved here, exactly as in the source, where
`getattr(token, "deprel")` would raise `AttributeError`. -/
def fieldOfString (s : String) : Option Field :=
  if s = "text" then some .ftext
  else if s = "pos" then some .fpos
  else if s = "cpos" then some .fcpos
  else if s = "lemma" then some .flemma
  else if s = "morph" then some .fmorph
  else if s = "head" then some .fhead
  else if s = "func" then some .ffunc
  else if s = "head2" then some .fhead2
  else if s = "func2" then some .ffunc2
  else if s = "num" then some .fnum
  else if s = "position" then some .fposition
  else none

/-! ## `test_relation` (lines 399-420) and the relation operator -/

/-- Prefix match of the tail of `\.([0-9]+)(,[0-9]+)?` after the dot
(`test_relation`, line 406): mandatory digit run, optional comma and second
digit run; trailing characters are ignored (`re.match` is a prefix match).
Returns `(min_dist, max_dist)`; when group 2 is absent both are the single
distance.  The source's `len(m.groups()) > 1` test is always true (a compiled
pattern has two groups), so the `else` arm of `test_relation` is dead code. -/
def parseDotOp (op : String) : Option (Int × Int) :=
  match op.toList with
  | '.' :: rest =>
    let d1 := rest.takeWhile (·.isDigit)
    if d1 = [] then none
    else
      let after := rest.drop d1.length
      let mn : Int := (d1.foldl (fun acc c => acc * 10 + (c.toNat - 48)) 0 : Nat)
      match after with
      | ',' :: r2 =>
        let d2 := r2.takeWhile (·.isDigit)
        if d2 = [] then some (mn, mn)
        else some (mn, ((d2.foldl (fun acc c => acc * 10 + (c.toNat - 48)) 0 : Nat) : Int))
      | _ => some (mn, mn)
  | _ => none

/-- `DepEdit.test_relation` (lines 399-420).  `none` models an uncaught
exception (`AttributeError` for an unknown field, `ValueError` for a
non-numeric id, `AttributeError` on a failed operator regex). -/
def testRelation (node1 node2 : Tok) (operator : String) : Option Bool :=
  if operator = "." then
    match pyIntFloat node2.id, pyIntFloat node1.id with
    | some a, some b => some (a = b + 1)
    | _, _ => none
  else if operator = ">" then
    match pyIntFloat node2.head, pyIntFloat node1.id with
    | some a, some b => some (a = b)
    | _, _ => none
  else if pyInStr "." operator then
    match parseDotOp operator, pyIntFloat node2.id, pyIntFloat node1.id with
    | some (mn, mx), some a, some b => some (mx ≥ a - b ∧ a - b ≥ mn)
    | _, _, _ => none
  else
    match fieldOfString operator with
    | some f => some (node1.getattrF f = node2.getattrF f)
    | none => none

/-- Tail match for `re.match(r'.*\.[0-9]*,?[0-9]*#', relation)` after a chosen
dot: greedy digit run, optional comma, greedy digit run, then a literal `#`.
Returns the number of consumed characters after the dot (including the `#`).
Greedy runs are deterministic here: a digit run ends only at a non-digit, so
no backtracking can succeed where this fails. -/
def dotTailMatch (l : List Char) : Option Nat :=
  let d1 := l.takeWhile (·.isDigit)
  let r1 := l.drop d1.length
  match r1 with
  | '#' :: _ => some (d1.length + 1)
  | ',' :: r2 =>
    let d2 := r2.takeWhile (·.isDigit)
    match r2.drop d2.length with
    | '#' :: _ => some (d1.length + 1 + d2.length + 1)
    | _ => none
  | _ => none

/-- The start index chosen by the greedy `.*` of
`re.match(r'.*\.[0-9]*,?[0-9]*#', relation)`: the largest dot position whose
tail matches. -/
def bestDotStart (l : List Char) : Option Nat :=
  (List.range l.length).foldl
    (fun acc p =>
      if l[p]? = some '.' ∧ (dotTailMatch (l.drop (p + 1))).isSome then some p else acc)
    none

/-- Operator extraction of `matches_relation` (lines 323-336): the `==` case
takes the `re.search(r':(.+)==', relation)` match (first colon start, greedy
up to the last `==`), the dotted case slices the `re.match` group between its
first `.` and its last `#`, otherwise `.` or `>` or none. -/
def relationOperator (relation : String) : Option String :=
  if pyInStr "==" relation then
    let l := relation.toList
    match l.findIdx? (· = ':') with
    | none => none
    | some i =>
      let js := (List.range l.length).filter fun j =>
        j ≥ i + 2 ∧ l[j]? = some '=' ∧ l[j + 1]? = some '='
      match js.max? with
      | none => none
      | some j => some ⟨(l.take (j + 2)).drop i⟩
  else if pyInStr "." relation then
    if (relation.toList.zip relation.toList.tail).any (fun p => p.1 = '.' ∧ p.2.isDigit) then
      match bestDotStart relation.toList with
      | none => none
      | some p =>
        match dotTailMatch (relation.toList.drop (p + 1)) with
        | none => none
        | some k =>
          let g : String := ⟨relation.toList.take (p + 1 + k)⟩
          match pyFind g '.', pyRFind g '#' with
          | (a : Int), (b : Int) =>
            if a ≥ 0 ∧ b ≥ 0 then some (pySlice g a.toNat b.toNat) else none
    else some "."
  else if pyInStr ">" relation then some ">"
  else none

/-! ## Definitions, matchers, and the match phase (lines 160-254, 300-307) -/

/-- Result of a stored `Definition` match function (`set_match_type`, lines
214-243): `fail` is a falsy result; `plain` models a bare `True` (exact,
negative, or always-true match functions, and a negative regex — no match
object, so no groups); `withGroups gs` models a regex match object whose
`.groups()` tuple is `gs` (possibly empty). -/
inductive MRes where
  | fail
  | plain
  | withGroups (gs : List String)

/-- A compiled sub-definition (`Definition`, lines 203-243): the canonical
field to read (aliases already resolved by `ALIASES.get`, line 207) and the
stored match function.  Literal patterns are built by the constructors below
exactly as `set_match_type` does; a compiled regex's semantics enters the
embedding as the stored function itself, so theorems quantify over it. -/
structure Defn where
  criterion : Field
  matchF : String → MRes

/-- `return_exact` (lines 225-227) as stored for a metacharacter-free value. -/
def mkExact (f : Field) (v : String) : Defn :=
  ⟨f, fun s => if s = v then .plain else .fail⟩

/-- `return_exact_negative` (lines 229-231). -/
def mkExactNeg (f : Field) (v : String) : Defn :=
  ⟨f, fun s => if s ≠ v then .plain else .fail⟩

/-- `return_true` (lines 241-243), stored for the pattern `^.*$`. -/
def mkTrue (f : Field) : Defn :=
  ⟨f, fun _ => .plain⟩

/-- `DefinitionMatcher` (lines 160-200): index and sub-definitions. -/
structure DefMatcherE where
  def_index : Nat
  defs : List Defn

/-- `DefinitionMatcher.match` (lines 188-200): conjunction with
short-circuit; nonempty group tuples of regex matches are collected in
definition order.  `none` is failure, `some gss` success with the collected
`self.groups`. -/
def DefMatcherE.matchTok (m : DefMatcherE) (t : Tok) : Option (List (List String)) :=
  m.defs.foldlM
    (fun acc d =>
      match d.matchF (t.getattrF d.criterion) with
      | .fail => none
      | .plain => some acc
      | .withGroups gs => some (if gs ≠ [] then acc ++ [gs] else acc))
    []

/-- `Match` (lines 246-254): the producing matcher's `def_index`, the matched
token identified by its index in the sentence token list (standing for Python
object identity), and the captured group tuples. -/
structure MatchE where
  def_index : Nat
  tokIdx : Nat
  groups : List (List String)
deriving DecidableEq, Repr

/-- The match phase of `process_sentence` (lines 302-307): `node_matches` is
a defaultdict; super-tokens are skipped.  `nm n` lists, in definition order
then token order, one `Match` per (matcher, matching non-super token). -/
def matcherHits (m : DefMatcherE) (toks : List Tok) : List MatchE :=
  (List.range toks.length).filterMap fun i =>
    match toks[i]? with
    | none => none
    | some t =>
      if t.is_super_tok then none
      else
        match m.matchTok t with
        | none => none
        | some gs => some ⟨m.def_index, i, gs⟩

def matchPhase (defs : List DefMatcherE) (toks : List Tok) : Nat → List MatchE :=
  fun n => ((defs.filter (·.def_index = n)).map (matcherHits · toks)).flatten

/-! ## Relations and `matches_relation` (lines 320-397) -/

/-- Canonical name of a modelled field, as it appears in relation/action
strings. -/
def fieldStr : Field → String
  | .ftext => "text"
  | .fpos => "pos"
  | .fcpos => "cpos"
  | .flemma => "lemma"
  | .fmorph => "morph"
  | .fhead => "head"
  | .ffunc => "func"
  | .fhead2 => "head2"
  | .ffunc2 => "func2"
  | .fnum => "num"
  | .fposition => "position"

/-- A parsed relation clause.  `matches_relation` re-parses the relation
string on every call (lines 320-336); the embedding carries the parse result.
`brel` keeps the operator substring (`">"`, `"."`, `".2"`, `".1,1000"`, …)
because `test_relation` receives it as a string.  `relStr` reconstructs the
source string injectively, so equality of `SRel` values coincides with the
string equality the source applies to its stored `rel` tags. -/
inductive SRel where
  | nullRel
  | brel (n1 n2 : Nat) (op : String)
  | feq (n1 n2 : Nat) (f : Field)
deriving DecidableEq, Repr

/-- The source string of a relation (used only for the `list.sort()` of
`merge_solutions`, line 494, which sorts relation strings). -/
def SRel.relStr : SRel → String
  | .nullRel => "none"
  | .brel a b op => "#" ++ toString a ++ op ++ "#" ++ toString b
  | .feq a b f => "#" ++ toString a ++ ":" ++ fieldStr f ++ "==#" ++ toString b

/-- Insertion-ordered `int → token` dict write (a Python dict keeps the key's
original position on overwrite). -/
def dictInsertN (l : List (Nat × Nat)) (k v : Nat) : List (Nat × Nat) :=
  if l.any (·.1 = k) then l.map fun p => if p.1 = k then (k, v) else p
  else l ++ [(k, v)]

def dictLookupN (l : List (Nat × Nat)) (k : Nat) : Option Nat :=
  (l.find? (·.1 = k)).map (·.2)

/-- Insertion-ordered string dict write (sentence annotations). -/
def dictSet (l : List (String × String)) (k v : String) : List (String × String) :=
  if l.any (·.1 = k) then l.map fun p => if p.1 = k then (k, v) else p
  else l ++ [(k, v)]

/-- A pairwise result set appended by `matches_relation` (lines 346-351,
363-364, 383-384): node dict in insertion order, the producing relation, the
matcher pair (or singleton). -/
structure RSet where
  nodes : List (Nat × Nat)
  rel : SRel
  matchers : List MatchE
deriving DecidableEq, Repr

/-- The inner candidate loop of `matches_relation` (lines 360-367, 380-387)
for a fixed `matcher1`: for each `matcher2` whose token pair satisfies the
relation, append a result set and record both tokens; count hits.  `none`
propagates an uncaught exception from `test_relation`. -/
def relPairsInner (toks : List Tok) (op : String) (r : SRel) (n1 n2 : Nat) (m1 : MatchE) :
    (List RSet × List Nat × List Nat × Nat) → List MatchE →
      Option (List RSet × List Nat × List Nat × Nat)
  | acc, [] => some acc
  | acc, m2 :: rest =>
    match toks[m1.tokIdx]?, toks[m2.tokIdx]? with
    | some t1, some t2 =>
      match testRelation t1 t2 op with
      | none => none
      | some true =>
        relPairsInner toks op r n1 n2 m1
          (acc.1 ++ [⟨dictInsertN (dictInsertN [] n1 m1.tokIdx) n2 m2.tokIdx, r, [m1, m2]⟩],
           acc.2.1 ++ [m1.tokIdx], acc.2.2.1 ++ [m2.tokIdx], acc.2.2.2 + 1) rest
      | some false => relPairsInner toks op r n1 n2 m1 acc rest
    | _, _ => none

/-- The outer candidate loop (lines 358, 378). -/
def relPairsOuter (toks : List Tok) (op : String) (r : SRel) (n1 n2 : Nat)
    (ms2 : List MatchE) :
    (List RSet × List Nat × List Nat × Nat) → List MatchE →
      Option (List RSet × List Nat × List Nat × Nat)
  | acc, [] => some acc
  | acc, m1 :: rest =>
    match relPairsInner toks op r n1 n2 m1 acc ms2 with
    | none => none
    | some acc2 => relPairsOuter toks op r n1 n2 ms2 acc2 rest

def relPairs (toks : List Tok) (op : String) (r : SRel) (n1 n2 : Nat)
    (ms1 ms2 : List MatchE) : Option (List RSet × List Nat × List Nat × Nat) :=
  relPairsOuter toks op r n1 n2 ms2 (([], [], [], 0)) ms1

/-- The pruning loops of `matches_relation` (lines 369-375 and 389-395):
matchers of the two implicated nodes whose token joined no successful pair
are removed.  When `n1 = n2` the two `matches` entries are the same Python
list, so membership is tested against the union. -/
def pruneNM (nm : Nat → List MatchE) (n1 n2 : Nat) (mt1 mt2 : List Nat) :
    Nat → List MatchE :=
  fun i =>
    if i = n1 ∨ i = n2 then
      let matched := (if i = n1 then mt1 else []) ++ (if i = n2 then mt2 else [])
      (nm i).filter (fun m => m.tokIdx ∈ matched)
    else nm i

/-- `matches_relation` (lines 320-397), taking the parsed relation: produces
the appended result sets, the pruned `node_matches`, and the hit count.  The
unary `"none"` branch (lines 341-351) does not prune. -/
def matchesRelation (toks : List Tok) (nm : Nat → List MatchE) (r : SRel) :
    Option (List RSet × (Nat → List MatchE) × Nat) :=
  match r with
  | .nullRel =>
    let sets := (nm 1).map fun m1 => RSet.mk (dictInsertN [] 1 m1.tokIdx) .nullRel [m1]
    some (sets, nm, (nm 1).length)
  | .feq n1 n2 f =>
    match relPairs toks (fieldStr f) r n1 n2 (nm n1) (nm n2) with
    | none => none
    | some (sets, mt1, mt2, hits) => some (sets, pruneNM nm n1 n2 mt1 mt2, hits)
  | .brel n1 n2 op =>
    match relPairs toks op r n1 n2 (nm n1) (nm n2) with
    | none => none
    | some (sets, mt1, mt2, hits) => some (sets, pruneNM nm n1 n2 mt1 mt2, hits)

/-! ## `normalize_shorthand` (lines 105-113) -/

/-- Parse `#[0-9]+` at the head of a character list: the consumed characters
and the rest. -/
def parseHashNum : List Char → Option (List Char × List Char)
  | '#' :: rest =>
    let ds := rest.takeWhile (·.isDigit)
    if ds.isEmpty then none else some ('#' :: ds, rest.drop ds.length)
  | _ => none

/-- The alternatives of the operator group `>|\.(?:[0-9]+(?:,[0-9]+)?)?` in
the order a backtracking engine tries them (greedy first): digits with a
comma part, digits alone, the bare dot. -/
def opAlts : List Char → List (List Char × List Char)
  | '>' :: rest => [(['>'], rest)]
  | '.' :: rest =>
    let d1 := rest.takeWhile (·.isDigit)
    if d1.isEmpty then [(['.'], rest)]
    else
      let r1 := rest.drop d1.length
      let withComma :=
        match r1 with
        | ',' :: r2 =>
          let d2 := r2.takeWhile (·.isDigit)
          if d2.isEmpty then [] else [('.' :: (d1 ++ ',' :: d2), r2.drop d2.length)]
        | _ => []
      withComma ++ [('.' :: d1, r1), (['.'], rest)]
  | _ => []

/-- One attempt of the chain pattern
`(#[0-9]+)(>|\.(…)?)(#[0-9]+)(>|\.(…)?)` (line 111) at the head of `l`:
the four groups and the remainder. -/
def matchChainAt (l : List Char) : Option ((List Char × List Char × List Char × List Char) × List Char) :=
  match parseHashNum l with
  | none => none
  | some (g1, r1) =>
    (opAlts r1).findSome? fun p2 =>
      match parseHashNum p2.2 with
      | none => none
      | some (g3, r3) =>
        (opAlts r3).findSome? fun p4 => some ((g1, p2.1, g3, p4.1), p4.2)

/-- One `re.sub` pass (line 111): non-overlapping left-to-right scan; a match
is replaced by `\1\2\3;\3\4` and scanning resumes after it.  A match consumes
at least one character, so `l.length` fuel suffices. -/
def subChainAux : Nat → List Char → List Char
  | 0, l => l
  | _ + 1, [] => []
  | fuel + 1, c :: rest =>
    match matchChainAt (c :: rest) with
    | some ((g1, g2, g3, g4), r) =>
      g1 ++ g2 ++ g3 ++ ';' :: (g3 ++ g4) ++ subChainAux fuel r
    | none => c :: subChainAux fuel rest

def subChainOnce (l : List Char) : List Char :=
  subChainAux l.length l

/-- The fixed-point loop of `normalize_shorthand` (lines 108-112): each
changing pass removes at least one operator juncture and none reappears, so
the initial length bounds the number of passes. -/
def normalizeShorthandAux : Nat → List Char → List Char
  | 0, s => s
  | fuel + 1, s =>
    let s2 := subChainOnce s
    if s2 = s then s else normalizeShorthandAux fuel s2

/-- `normalize_shorthand` (lines 105-113): the `.*` → `.1,1000` replacement
(line 107), then the chain rewrite to fixed point. -/
def normalizeShorthand (s : String) : String :=
  let r := pyReplaceL ".*".toList ".1,1000".toList s.toList
  ⟨normalizeShorthandAux r.length r⟩

/-- The relation loop of `process_sentence` (lines 308-311): each relation's
sets are appended to `result_sets`, and a relation with zero hits resets
`result_sets` to `[]`. -/
def relLoop (toks : List Tok) : List SRel → (Nat → List MatchE) → List RSet →
    Option (List RSet × (Nat → List MatchE))
  | [], nm, sets => some (sets, nm)
  | r :: rest, nm, sets =>
    match matchesRelation toks nm r with
    | none => none
    | some (newSets, nm2, hits) =>
      relLoop toks rest nm2 (if hits = 0 then [] else sets ++ newSets)

/-! ## `merge_sets` (lines 422-463) and its helpers -/

/-- A bin of `merge_sets`: node dict (insertion order), accumulated `rels`,
and a reference into the matcher-list heap.  Python's `copy()` copies the
dict but shares the matcher list object, and `merge_bins` mutates that shared
list in place; the heap models those shared mutable lists. -/
structure BinE where
  nodes : List (Nat × Nat)
  rels : List SRel
  mref : Nat
deriving DecidableEq, Repr

def heapGet (heap : List (List MatchE)) (i : Nat) : List MatchE :=
  heap[i]?.getD []

/-- `bins_compatible` (lines 496-506), with `bin1` the fresh seed: `overlap`
holds when a shared key has an equal value — the "rels" lists, the "matchers"
lists (Python list `==` compares elements, and `Match` elements compare by
identity, i.e. by their (def_index, token) origin), or a node key mapped to
the same token; `non_overlap` needs a key of `bin1` missing from `bin2`,
necessarily a node key since every bin has "rels" and "matchers". -/
def binsCompatible (heap : List (List MatchE)) (b1 b2 : BinE) : Bool :=
  let overlap := b1.rels = b2.rels || heapGet heap b1.mref = heapGet heap b2.mref
    || b1.nodes.any fun p => dictLookupN b2.nodes p.1 = some p.2
  let nonOverlap := b1.nodes.any fun p => (dictLookupN b2.nodes p.1).isNone
  overlap && nonOverlap

/-- `merge_bins` (lines 508-532): extend `bin2`'s shared matcher list with
the matchers of `bin1` whose `def_index` is not yet present (the dedup check
reads the growing list, modelled by folding); then copy `bin2`, add the first
node key of `bin1` absent from it, and set the rels to `bin2.rels` plus the
last relation of `bin1.rels` (the line-529 loop overwrites `out_bin["rels"]`
each iteration, so only the final `new_rel` survives; seeds carry exactly one
relation).  `none` models the fall-through `return None` when no key is
missing, unreachable under compatibility. -/
def mergeBins (heap : List (List MatchE)) (b1 b2 : BinE) :
    List (List MatchE) × Option BinE :=
  let l2 := (heapGet heap b1.mref).foldl
    (fun acc m => if acc.any (·.def_index = m.def_index) then acc else acc ++ [m])
    (heapGet heap b2.mref)
  let heap2 := heap.set b2.mref l2
  match b1.nodes.find? (fun p => (dictLookupN b2.nodes p.1).isNone) with
  | none => (heap2, none)
  | some p =>
    match b1.rels.getLast? with
    | none => (heap2, some { nodes := b2.nodes ++ [p], rels := b2.rels, mref := b2.mref })
    | some r => (heap2, some { nodes := b2.nodes ++ [p], rels := b2.rels ++ [r], mref := b2.mref })

structure MergeSt where
  heap : List (List MatchE)
  bins : List BinE
deriving Repr

/-- One iteration of the seeding loop of `merge_sets` (lines 426-440): build
`new_set` (fresh matcher list; single relation), try to merge it with every
bin of the snapshot `copy(bins)` (heap mutations made by earlier merges in
the same pass are visible to later compatibility checks), append the merge
results in order, then append the seed itself. -/
def seedMergeStep (newSet : BinE) (acc : List (List MatchE) × List BinE)
    (myBin : BinE) : List (List MatchE) × List BinE :=
  if binsCompatible acc.1 newSet myBin then
    match mergeBins acc.1 newSet myBin with
    | (h2, some cand) => (h2, acc.2 ++ [cand])
    | (h2, none) => (h2, acc.2)
  else acc

def seedStep (st : MergeSt) (s : RSet) : MergeSt :=
  let newRef := st.heap.length
  let heap1 := st.heap ++ [s.matchers]
  let newSet : BinE := { nodes := s.nodes, rels := [s.rel], mref := newRef }
  let step := st.bins.foldl (seedMergeStep newSet)
    ((heap1, []) : List (List MatchE) × List BinE)
  { heap := step.1, bins := st.bins ++ step.2 ++ [newSet] }

/-- The in-place completion scan for one bin (lines 446-457): walk the
original pairwise sets; a set whose relation is not yet in the bin's rels,
and whose node keys are all present with identical tokens, appends its
relation; the bin is promoted to a solution at the moment the count equals
`rel_count` (the reference keeps mutating afterwards, so a promoted bin
carries its final rels list). -/
def solutionScan (sets : List RSet) (relCount : Nat) (b : BinE) : BinE × Bool :=
  let step := sets.foldl
    (fun (acc : List SRel × Bool) s =>
      if s.rel ∈ acc.1 then acc
      else if s.nodes.all (fun p => (dictLookupN b.nodes p.1).isSome) then
        if s.nodes.all (fun p => dictLookupN b.nodes p.1 = some p.2) then
          let r2 := acc.1 ++ [s.rel]
          (r2, acc.2 || r2.length = relCount)
        else acc
      else acc)
    ((b.rels, false) : List SRel × Bool)
  ({ b with rels := step.1 }, step.2)

/-- The solution-collection loop (lines 442-457): only bins whose dict has
`node_count + 2` keys (i.e. `node_count` node keys) are considered; a bin
with exactly `rel_count` rels is a solution as is, otherwise `solutionScan`
may promote it. -/
def collectSolutions (sets : List RSet) (nodeCount relCount : Nat)
    (bins : List BinE) : List BinE :=
  bins.foldl
    (fun acc b =>
      if b.nodes.length = nodeCount then
        if b.rels.length = relCount then acc ++ [b]
        else
          let (b2, hit) := solutionScan sets relCount b
          if hit then acc ++ [b2] else acc
      else acc)
    []

/-- Python `==` on two bins: dict value equality (key order ignored; the
matcher lists compare by contents). -/
def binValEq (heap : List (List MatchE)) (b1 b2 : BinE) : Bool :=
  b1.rels = b2.rels && heapGet heap b1.mref = heapGet heap b2.mref
    && b1.nodes.length = b2.nodes.length
    && b1.nodes.all fun p => dictLookupN b2.nodes p.1 = some p.2

/-- `merged_solution.update(candidate)` on the node dicts: candidate's values
overwrite in place, its new keys append. -/
def dictUpdateN (d1 d2 : List (Nat × Nat)) : List (Nat × Nat) :=
  (d1.map fun p =>
    match dictLookupN d2 p.1 with
    | some v => (p.1, v)
    | none => p) ++ d2.filter fun p => (dictLookupN d1 p.1).isNone

/-- Insertion sort by the relation strings — `solution["rels"].sort()`
(line 494) sorts the stored relation strings lexicographically; the sort is
stable and `relStr` is injective. -/
def insertRelSorted (r : SRel) : List SRel → List SRel
  | [] => [r]
  | x :: rest => if r.relStr < x.relStr then r :: x :: rest else x :: insertRelSorted r rest

def sortRels (l : List SRel) : List SRel :=
  l.foldl (fun acc r => insertRelSorted r acc) []

/-- `merge_solutions` (lines 465-494) for one solution: append it to `merged`
unless an equal bin is present; if its rels count differs from `rel_count`,
scan every unequal candidate and every node key shared with an identical
token, and — when the solution's rels are not all in the candidate — append a
fused bin (solution updated by candidate, concatenated rels, deduplicated
matchers in a fresh list); finally sort the solution's own rels in place,
which affects exactly the occurrence appended by this call. -/
def mergeSolutionsStep (relCount : Nat) (acc : List (List MatchE) × List BinE)
    (solution : BinE) : List (List MatchE) × List BinE :=
  let heap := acc.1
  let merged := acc.2
  let appended := ¬ merged.any (binValEq heap · solution)
  let merged1 := if appended then merged ++ [solution] else merged
  let step :=
    if solution.rels.length ≠ relCount then
      merged1.foldl
        (fun (acc2 : List (List MatchE) × List BinE) cand =>
          if binValEq acc2.1 cand solution then acc2
          else
            solution.nodes.foldl
              (fun (acc3 : List (List MatchE) × List BinE) p =>
                match dictLookupN cand.nodes p.1 with
                | some v =>
                  if v = p.2 then
                    if solution.rels.all (· ∈ cand.rels) then acc3
                    else
                      let rels := solution.rels ++ cand.rels
                      let matchers := (heapGet acc3.1 cand.mref).foldl
                        (fun ms m => if m ∈ ms then ms else ms ++ [m])
                        (heapGet acc3.1 solution.mref)
                      let fused : BinE :=
                        { nodes := dictUpdateN solution.nodes cand.nodes,
                          rels := rels, mref := acc3.1.length }
                      (acc3.1 ++ [matchers], acc3.2 ++ [fused])
                  else acc3
                | none => acc3)
              acc2)
        ((heap, []) : List (List MatchE) × List BinE)
    else (heap, [])
  let merged2 := merged1 ++ step.2
  let merged3 :=
    if appended then
      merged2.set merged.length { solution with rels := sortRels solution.rels }
    else merged2
  (step.1, merged3)

/-- `prune_merged_bins` (lines 534-548): drop bins with fewer than
`rel_count` relations. -/
def pruneMergedBins (relCount : Nat) (bins : List BinE) : List BinE :=
  bins.filter fun b => ¬ b.rels.length < relCount

/-- `merge_sets` (lines 422-463): seed and grow bins, collect solutions,
fuse overlapping solutions, prune.  Returns the final heap (for group
collection) and the merged bins. -/
def mergeSets (sets : List RSet) (nodeCount relCount : Nat) :
    List (List MatchE) × List BinE :=
  let st := sets.foldl seedStep { heap := [], bins := [] }
  let solutions := collectSolutions sets nodeCount relCount st.bins
  let step := solutions.foldl (mergeSolutionsStep relCount) ((st.heap, []))
  (step.1, pruneMergedBins relCount step.2)

/-! ## Group collection and actions (lines 550-613, 314-318) -/

/-- Stable insertion sort of matchers by `def_index` (Python `sorted` with a
key is stable). -/
def insertMatcherSorted (m : MatchE) : List MatchE → List MatchE
  | [] => [m]
  | x :: rest => if m.def_index < x.def_index then m :: x :: rest else x :: insertMatcherSorted m rest

def sortMatchers (l : List MatchE) : List MatchE :=
  l.foldl (fun acc m => insertMatcherSorted m acc) []

/-- `add_groups` (lines 550-558): sort the bin's matchers by `def_index` and
concatenate the first element of each captured group tuple.  (The collected
tuples are nonempty by construction, line 197-198, so `group[0]` cannot
raise; `headD ""` is that total reading.) -/
def addGroupsOf (heap : List (List MatchE)) (b : BinE) : List String :=
  ((sortMatchers (heapGet heap b.mref)).map fun m => m.groups.map (fun g => g.headD "")).flatten

/-- A complete result set as `execute_action` reads it after `add_groups`:
node dict and expanded groups (only `result[node]`, `result["groups"]` and
the bound tokens' sentence are read there). -/
structure Binding where
  nodes : List (Nat × Nat)
  groups : List String
deriving DecidableEq, Repr

def toBindings (heap : List (List MatchE)) (bins : List BinE) : List Binding :=
  bins.map fun b => ⟨b.nodes, addGroupsOf heap b⟩

/-- A parsed action.  `execute_action` re-parses the action string on every
call (lines 560-613); the embedding carries the parse, and `assignRaw`
reconstructs the exact source text for the missing-capture-group diagnostic. -/
inductive ActA where
  | lastA
  | sannot (key val : String)
  | assign (node : Nat) (f : Field) (value : String)
  | rewire (n1 n2 : Nat)
deriving DecidableEq, Repr

def assignRaw (node : Nat) (f : Field) (value : String) : String :=
  "#" ++ toString node ++ ":" ++ fieldStr f ++ "=" ++ value

/-- `re.findall(r"(\$[0-9]+[LU]?)", value)` (line 577): left-to-right
non-overlapping scan; a dollar sign, a maximal digit run, an optional single
`L` or `U`. -/
def findRefsAux : Nat → List Char → List String
  | 0, _ => []
  | _ + 1, [] => []
  | fuel + 1, c :: rest =>
    if c = '$' then
      let ds := rest.takeWhile (·.isDigit)
      if ds.isEmpty then findRefsAux fuel rest
      else
        let after := rest.drop ds.length
        let suf : List Char :=
          if after.head? = some 'L' then ['L']
          else if after.head? = some 'U' then ['U'] else []
        (⟨'$' :: (ds ++ suf)⟩ : String) :: findRefsAux fuel (after.drop suf.length)
    else findRefsAux fuel rest

def findRefs (l : List Char) : List String :=
  findRefsAux l.length l

/-- The diagnostic printed before `sys.exit()` on a missing capture group
(lines 596-597). -/
def missingGroupMsg (raw : String) (n : Int) : String :=
  "The action '" ++ raw ++ "' refers to a missing regex bracket group '$" ++ toString n ++ "'"

/-- The back-reference expansion of `execute_action` (lines 577-604): process
the references found in the original value in order; each resolves
`groups[group_num - 1]` with Python list indexing (an `IndexError` exits with
the diagnostic), case-folds on an `L`/`U` suffix, and substitutes every
occurrence of the reference text in the evolving value (`re.sub` with the
escaped dollar and the literal digits/suffix).  The replacement text is taken
literally. -/
def refParts (g : String) : String × List Char :=
  let noDollar : List Char := g.toList.drop 1
  match noDollar.getLast? with
  | some 'U' => ("upper", noDollar.dropLast)
  | some 'L' => ("lower", noDollar.dropLast)
  | _ => ("", noDollar)

/-- The numeric index of a found reference (`group_num`, line 588). -/
def refNum (g : String) : Option Int :=
  pyInt ⟨(refParts g).2⟩

/-- One iteration of the reference loop (lines 579-604) on the evolving
value. -/
def refStep (raw : String) (groups : List String) (v g : String) :
    Except String String :=
  let cs := refParts g
  match refNum g with
  | none => Except.error "ValueError"
  | some gn =>
    match pyGetIdx groups (gn - 1) with
    | none => Except.error (missingGroupMsg raw gn)
    | some gv =>
      let gv2 := if cs.1 = "lower" then gv.toLower
        else if cs.1 = "upper" then gv.toUpper else gv
      let gstr := (⟨cs.2⟩ : String) ++
        (if cs.1 = "lower" then "L" else if cs.1 = "upper" then "U" else "")
      Except.ok (pyReplace v ("$" ++ gstr) gv2)

def expandRefs (raw : String) (groups : List String) (value : String) :
    Except String String :=
  (findRefs value.toList).foldlM (refStep raw groups) value

/-- The per-sentence mutable state seen by the engine: the token list (object
identity = list index) and the owning sentence's annotation dict. -/
structure SentState where
  toks : List Tok
  annos : List (String × String)
deriving DecidableEq, Repr

/-- `execute_action` (lines 560-613) for a single-action string (a
transformation's actions are `;`-split at parse time, so the inner split
yields one action): iterate the result sets; `last` returns the sentinel at
the first set; assignments expand back-references and `setattr` the bound
token; `#S:` writes the sentence annotation dict; `#i>#j` sets the head of
the `j`-bound token to the id of the `i`-bound token unless they are the same
object.  `Except` carries the `sys.exit` of a missing capture group; the
`KeyError` arms are unreachable for bins produced by the pipeline. -/
def executeAction : SentState → ActA → List Binding → Except String (SentState × Bool)
  | st, _, [] => .ok (st, false)
  | st, a, b :: rest =>
    match a with
    | .lastA => .ok (st, true)
    | .sannot key val =>
      match dictLookupN b.nodes 1 with
      | none => .error "KeyError"
      | some _ => executeAction { st with annos := dictSet st.annos key val } a rest
    | .assign node f value =>
      match dictLookupN b.nodes node with
      | none => .error "KeyError"
      | some ti =>
        match expandRefs (assignRaw node f value) b.groups value with
        | .error e => .error e
        | .ok v2 =>
          match st.toks[ti]? with
          | none => .error "IndexError"
          | some t =>
            executeAction { st with toks := st.toks.set ti (t.setattrF f v2) } a rest
    | .rewire n1 n2 =>
      match dictLookupN b.nodes n1, dictLookupN b.nodes n2 with
      | some t1i, some t2i =>
        if t1i ≠ t2i then
          match st.toks[t1i]?, st.toks[t2i]? with
          | some t1, some t2 =>
            executeAction { st with toks := st.toks.set t2i (t2.setattrF .fhead t1.id) } a rest
          | _, _ => .error "IndexError"
        else executeAction st a rest
      | _, _ => .error "KeyError"

/-- The action loop of `process_sentence` (lines 314-318): actions run in
declaration order, each handed the full result-set list; the sentinel stops
the loop (and the sentence). -/
def execActionsCode : SentState → List Binding → List ActA → Except String (SentState × Bool)
  | st, _, [] => .ok (st, false)
  | st, bs, a :: rest =>
    match executeAction st a bs with
    | .error e => .error e
    | .ok (st2, stop) => if stop then .ok (st2, true) else execActionsCode st2 bs rest

/-- A compiled transformation as `process_sentence` consumes it. -/
structure TransE where
  definitions : List DefMatcherE
  relations : List SRel
  actions : List ActA

/-- `process_sentence` (lines 300-318) for one transformation: match phase,
relation loop, merge, group collection, and the action loop guarded by
`if result_sets`. -/
def execTransformation (st : SentState) (t : TransE) : Except String (SentState × Bool) :=
  let nm := matchPhase t.definitions st.toks
  match relLoop st.toks t.relations nm [] with
  | none => .error "exception"
  | some (sets, _) =>
    let ms := mergeSets sets t.definitions.length t.relations.length
    let bs := toBindings ms.1 ms.2
    if bs.isEmpty then .ok (st, false)
    else execActionsCode st bs t.actions

/-- `process_sentence` (lines 300-318): transformations in order; a `last`
returns immediately. -/
def processSentence : SentState → List TransE → Except String SentState
  | st, [] => .ok st
  | st, t :: rest =>
    match execTransformation st t with
    | .error e => .error e
    | .ok (st2, stop) => if stop then .ok st2 else processSentence st2 rest

/-! ## Spec-side executors (for the refinement claims about action order) -/

/-- One action on one binding (the per-binding mutation semantics of §4.4 of
the spec, which coincides with the code's per-result-set body): `last`
signals termination without mutating. -/
def applyOneSpec (st : SentState) (b : Binding) : ActA → Except String (SentState × Bool)
  | .lastA => .ok (st, true)
  | .sannot key val =>
    match dictLookupN b.nodes 1 with
    | none => .error "KeyError"
    | some _ => .ok ({ st with annos := dictSet st.annos key val }, false)
  | .assign node f value =>
    match dictLookupN b.nodes node with
    | none => .error "KeyError"
    | some ti =>
      match expandRefs (assignRaw node f value) b.groups value with
      | .error e => .error e
      | .ok v2 =>
        match st.toks[ti]? with
        | none => .error "IndexError"
        | some t => .ok ({ st with toks := st.toks.set ti (t.setattrF f v2) }, false)
  | .rewire n1 n2 =>
    match dictLookupN b.nodes n1, dictLookupN b.nodes n2 with
    | some t1i, some t2i =>
      if t1i ≠ t2i then
        match st.toks[t1i]?, st.toks[t2i]? with
        | some t1, some t2 =>
          .ok ({ st with toks := st.toks.set t2i (t2.setattrF .fhead t1.id) }, false)
        | _, _ => .error "IndexError"
      else .ok (st, false)
    | _, _ => .error "KeyError"

/-- Modelled from the spec's words (§4.4, claim C1): all actions in
declaration order on one binding; `last` terminates. -/
def execActsOnBindingSpec : SentState → Binding → List ActA → Except String (SentState × Bool)
  | st, _, [] => .ok (st, false)
  | st, b, a :: rest =>
    match applyOneSpec st b a with
    | .error e => .error e
    | .ok (st2, stop) => if stop then .ok (st2, true) else execActsOnBindingSpec st2 b rest

/-- Modelled from the spec's words (§4.4, claim C1): binding-major execution
— "for each binding (in the chosen stable order), execute actions in order",
`last` terminating all further processing. -/
def execBindingMajorSpec : SentState → List Binding → List ActA → Except String (SentState × Bool)
  | st, [], _ => .ok (st, false)
  | st, b :: rest, acts =>
    match execActsOnBindingSpec st b acts with
    | .error e => .error e
    | .ok (st2, stop) => if stop then .ok (st2, true) else execBindingMajorSpec st2 rest acts

/-- One action applied to every binding in order (no `last` handling: the
caller treats `last` first). -/
def applyToAllSpec (a : ActA) : SentState → List Binding → Except String SentState
  | st, [] => .ok st
  | st, b :: rest =>
    match applyOneSpec st b a with
    | .error e => .error e
    | .ok (st2, _) => applyToAllSpec a st2 rest

/-- The amended reading of claim C1 (action-major execution): one action at a
time in declaration order, each applied to every binding before the next; a
`last` action stops everything as soon as it is reached (it is reached when
at least one binding exists). -/
def execActionMajorSpec : SentState → List Binding → List ActA → Except String (SentState × Bool)
  | st, _, [] => .ok (st, false)
  | st, bs, a :: rest =>
    if a = .lastA ∧ bs ≠ [] then .ok (st, true)
    else
      match applyToAllSpec a st bs with
      | .error e => .error e
      | .ok st2 => execActionMajorSpec st2 bs rest

/-! ## Invariants for the merge-engine analysis (claim C2) -/

/-- The `def_index` projection of a matcher list. -/
def defIdxs (ms : List MatchE) : List Nat :=
  ms.map (·.def_index)

/-- The node-key set a relation's pairwise result dict carries (the dict
`{node1: tok1, node2: tok2}` collapses equal keys). -/
def relKeys : SRel → List Nat
  | .nullRel => [1]
  | .brel n1 n2 _ => if n2 = n1 then [n1] else [n1, n2]
  | .feq n1 n2 _ => if n2 = n1 then [n1] else [n1, n2]

/-- Well-formedness of `node_matches`: every matcher listed under key `n`
carries `def_index = n` (true by construction of the match phase and
preserved by pruning). -/
def NMwf (nm : Nat → List MatchE) : Prop :=
  ∀ n, ∀ m ∈ nm n, m.def_index = n

/-- Shape of a pairwise result set as `matches_relation` constructs it: its
node keys are exactly the relation's keys, and its matcher `def_index`es
cover exactly those keys. -/
def WFSet (s : RSet) : Prop :=
  s.nodes.map Prod.fst = relKeys s.rel ∧
    ∀ k, k ∈ defIdxs s.matchers ↔ k ∈ relKeys s.rel

/-- The bin invariant maintained through the seeding loop of `merge_sets`:
nonempty duplicate-free rels drawn from the available relations, each rel's
keys present among the bin's node keys, a valid heap reference, and node keys
covered by the matcher-list `def_index`es. -/
structure BinInv (avail : SRel → Prop) (heap : List (List MatchE)) (b : BinE) : Prop where
  rels_ne : b.rels ≠ []
  rels_nodup : b.rels.Nodup
  rels_avail : ∀ r ∈ b.rels, avail r
  rels_keys : ∀ r ∈ b.rels, ∀ k ∈ relKeys r, k ∈ b.nodes.map Prod.fst
  nodes_ne : b.nodes ≠ []
  mref_lt : b.mref < heap.length
  keys_idx : ∀ k ∈ b.nodes.map Prod.fst, k ∈ defIdxs (heapGet heap b.mref)

/-- Heap evolution during the seeding loop: cells only grow (in place or by
appending new cells). -/
def heapLe (h h2 : List (List MatchE)) : Prop :=
  h.length ≤ h2.length ∧ ∀ i < h.length, ∃ ext, heapGet h2 i = heapGet h i ++ ext

/-! ## Concrete material for counterexamples and witnesses -/

/-- The `lemma` field constant, spelled without the keyword-adjacent name. -/
def lemField : Field := Field.flemma

/-- A plain non-super token with the given stored id and text. -/
def exTok (i tx : String) : Tok :=
  ⟨i, tx, "_", "X", "_", "_", "0", "r", "_", "_", i, "mid", false⟩

/-- Two-token state, two complete bindings (one per token on node 1), and the
action list `#1:lemma=X; last`: the pair that separates the code's action
order from binding-major order. -/
def c1St : SentState := ⟨[exTok "1.0" "a", exTok "2.0" "a"], []⟩

def c1Bs : List Binding := [⟨[(1, 0)], []⟩, ⟨[(1, 1)], []⟩]

def c1Acts : List ActA := [.assign 1 lemField "X", .lastA]

/-- Two-token sentence and a two-relation rule (`#1.5#2;#1.1#2`) whose first
relation yields zero token pairs: the tokens sit at distance 1, not 5. -/
def c2St : SentState := ⟨[exTok "1.0" "a", exTok "2.0" "b"], []⟩

def c2Trans : TransE :=
  ⟨[⟨1, [mkExact .ftext "a"]⟩, ⟨2, [mkExact .ftext "b"]⟩],
   [.brel 1 2 ".5", .brel 1 2 ".1"], [.assign 1 lemField "BAD"]⟩

/-! ## Serialization (`serialize_output_tree`, lines 652-673) and the reader
token-line branch (`run_depedit`, lines 719-745) -/

/-- The field list of one output row of `serialize_output_tree` (lines
654-671).  The float renumbering of ordinary tokens is abstracted as
`floatSub s off`, standing for `str(float(s) - off)`; the super-token branch
never invokes it, so the theorems about super-tokens hold for every such
function. -/
def serializeTokFields (floatSub : String → Nat → String) (mode8col : Bool)
    (tokoffset : Nat) (t : Tok) : List String :=
  let hs0 :=
    if t.is_super_tok then (t.head, t.id)
    else if t.head = "0" then ("0", floatSub t.id tokoffset)
    else (floatSub t.head tokoffset, floatSub t.id tokoffset)
  let idS := pyReplace hs0.2 ".0" ""
  let headS := pyReplace hs0.1 ".0" ""
  let headS2 := if pyInStr "." idS then "_" else headS
  [idS, t.text, t.lemm, t.pos, t.cpos, t.morph, headS2, t.func] ++
    (if mode8col then [] else [t.head2, t.func2])

/-- One serialized row, tab-joined (line 672). -/
def serializeTok (floatSub : String → Nat → String) (mode8col : Bool)
    (tokoffset : Nat) (t : Tok) : String :=
  String.intercalate "	" (serializeTokFields floatSub mode8col tokoffset t)

/-- `serialize_output_tree` (lines 652-673). -/
def serializeOutputTree (floatSub : String → Nat → String) (mode8col : Bool)
    (tokoffset : Nat) (toks : List Tok) : List String :=
  toks.map (serializeTok floatSub mode8col tokoffset)

/-- The token-line branch of the reader loop in `run_depedit` (lines
719-745), applied to one already-tab-split line.  `floatAdd s off` stands for
`str(float(s) + off)`; a super-token line (a dash in the first column) never
invokes it.  `none` stands for the `IndexError` raised on a missing column. -/
def readTokLine (floatAdd : String → Nat → String) (tokoffset : Nat)
    (cols : List String) : Option (Tok × Bool) :=
  match cols[0]?, cols[1]?, cols[2]?, cols[3]?, cols[4]?, cols[5]?, cols[6]?, cols[7]? with
  | some c0, some c1, some c2, some c3, some c4, some c5, some c6, some c7 =>
    let superTok := pyInStr "-" c0
    let tokId := if superTok then c0 else floatAdd c0 tokoffset
    let headId :=
      if superTok then c6
      else if c6 = "_" then toString tokoffset
      else floatAdd c6 tokoffset
    let hf2 : Option (String × String) :=
      if cols.length > 8 then
        match cols[8]?, cols[9]? with
        | some c8, some c9 => some (c8, c9)
        | _, _ => none
      else some (c6, c7)
    match hf2 with
    | none => none
    | some hf =>
      let pos := if c0 = "1" ∧ superTok = false then "first" else "mid"
      some (⟨tokId, c1, c2, c3, c4, c5, headId, c7, hf.1, hf.2, c0, pos, superTok⟩, superTok)
  | _, _, _, _, _, _, _, _ => none

/-- The spec-side id shape `\d+-\d+` of the super-token claim: a full
match of ASCII digits, a dash, digits. -/
def digitsDashDigits (s : String) : Bool :=
  match s.toList.drop (s.toList.takeWhile (fun c => c.isDigit)).length with
  | '-' :: r2 =>
    !(s.toList.takeWhile (fun c => c.isDigit)).isEmpty && !r2.isEmpty &&
      r2.all (fun c => c.isDigit)
  | _ => false

/-- The C3 counterexample row: a super-token line whose head column is
`"2.0"`. -/
def c3Cols : List String := ["1-2", "ab", "_", "_", "_", "_", "2.0", "_", "_", "_"]

/-- The token `readTokLine` builds from `c3Cols`. -/
def c3Tok : Tok :=
  ⟨"1-2", "ab", "_", "_", "_", "_", "2.0", "_", "_", "_", "1-2", "mid", true⟩

/-! ## The driver loop (`run_depedit`, lines 678-760) -/

/-- `Sentence.__init__` (lines 62-66): the `sent_num` argument is accepted
and then discarded — line 66 reads `self.sent_num = 0`, so the stored counter
is always the literal 0. -/
def sentenceInitNum (sentNum : Nat) : Nat := 0

/-- `make_sent_id` (lines 675-676). -/
def mkSentId (docname : String) (n : Nat) : String :=
  "# sent_id = " ++ docname ++ "-" ++ toString n

/-- `str(float(s) + off)` for integral decimal literals: the concrete float
helper used to instantiate the abstracted reader arithmetic. -/
def intFloatAdd (s : String) (off : Nat) : String :=
  match pyIntFloat s with
  | some n => toString (n + off) ++ ".0"
  | none => s

/-- `str(float(s) - off)` for integral decimal literals. -/
def intFloatSub (s : String) (off : Nat) : String :=
  match pyIntFloat s with
  | some n => toString (n - off) ++ ".0"
  | none => s

/-- The loop state of `run_depedit` (lines 682-690): offsets, open-sentence
counters, the stored `sent_num` of `current_sentence`, the 8col flag, the
accumulated token list (`conll_tokens` without its integer sentinel) and the
output lines. -/
structure DriverSt where
  tokoffset : Nat
  supertokOffset : Nat
  sentlength : Nat
  supertokLength : Nat
  sentNum : Nat
  mode8 : Bool
  toks : List Tok
  output : List String
deriving Repr

/-- `conll_tokens[-1].position = "last"` (line 693). -/
def setLastPos (ts : List Tok) : List Tok :=
  match ts.getLast? with
  | none => ts
  | some t => ts.dropLast ++ [{ t with position := "last" }]

/-- `_process_sentence` (lines 691-698): mark the last token, slice the
current sentence's tokens, run all transformations, then append annotation
lines, the serialized tree, and (with `sent_id`) the sent_id comment built
from the stored `sent_num`. -/
def driverFlush (floatSub : String → Nat → String) (trans : List TransE)
    (sentId : Bool) (docname : String) (st : DriverSt) : Except String DriverSt :=
  let toks2 := setLastPos st.toks
  let sentToks := toks2.drop (st.tokoffset + st.supertokOffset)
  match processSentence ⟨sentToks, []⟩ trans with
  | .error e => .error e
  | .ok s2 =>
    .ok { st with
      toks := toks2.take (st.tokoffset + st.supertokOffset) ++ s2.toks,
      output := st.output ++ s2.annos.map (fun kv => "# " ++ kv.1 ++ "=" ++ kv.2) ++
        serializeOutputTree floatSub st.mode8 st.tokoffset s2.toks ++
        (if sentId then [mkSentId docname st.sentNum] else []) }

/-- The loop's post-flush resets (lines 706-710): a fresh sentence whose
`sent_num` passes through `Sentence.__init__`, and advanced offsets. -/
def driverResets (st : DriverSt) : DriverSt :=
  { st with
    sentNum := sentenceInitNum (st.sentNum + 1),
    tokoffset := st.tokoffset + st.sentlength,
    supertokOffset := st.supertokOffset + st.supertokLength,
    sentlength := 0,
    supertokLength := 0 }

/-- One iteration of the reader loop (lines 704-745): strip the line; if a
sentence is open and the line has no tab, flush it first; then comment lines
and blank lines pass to the output, lines whose first tab is past column 0
are read as tokens, and anything else is dropped. -/
def driverStep (floatAdd floatSub : String → Nat → String) (trans : List TransE)
    (sentId : Bool) (docname : String) (st : DriverSt) (line : String) :
    Except String DriverSt :=
  let myline := pyStrip line
  match (if st.sentlength ≠ 0 ∧ pyInStr "\t" myline = false then
      (driverFlush floatSub trans sentId docname st).map driverResets
    else .ok st) with
  | .error e => .error e
  | .ok st1 =>
    if pyStartsWith myline "#" then .ok { st1 with output := st1.output ++ [myline] }
    else if myline = "" then .ok { st1 with output := st1.output ++ [""] }
    else if pyFind myline '\t' > 0 then
      let cols := pySplit myline '\t'
      match readTokLine floatAdd st1.tokoffset cols with
      | none => .error "IndexError"
      | some (t, sup) =>
        .ok { st1 with
          toks := st1.toks ++ [t],
          mode8 := if cols.length > 8 then st1.mode8 else true,
          sentlength := st1.sentlength + (if sup then 0 else 1),
          supertokLength := st1.supertokLength + (if sup then 1 else 0) }
    else .ok st1

/-- `run_depedit` (lines 678-760) over pre-split input lines: fold the reader
loop, flush a final open sentence, and prepend the `newdoc` line when asked. -/
def runDepedit (floatAdd floatSub : String → Nat → String) (trans : List TransE)
    (sentId docnameFlag : Bool) (filename : String) (lines : List String) :
    Except String (List String) :=
  match lines.foldlM (driverStep floatAdd floatSub trans sentId filename)
      ⟨0, 0, 0, 0, sentenceInitNum 1, false, [], []⟩ with
  | .error e => .error e
  | .ok stF =>
    match (if stF.sentlength ≠ 0 then driverFlush floatSub trans sentId filename stF
      else .ok stF) with
    | .error e => .error e
    | .ok stG =>
      .ok (if docnameFlag then ("# newdoc id = " ++ filename) :: stG.output
        else stG.output)

/-- The C6 failing input: two one-token sentences. -/
def c6Lines : List String :=
  ["1\ta\t_\t_\t_\t_\t0\tr\t_\t_", "", "1\tb\t_\t_\t_\t_\t0\tr\t_\t_"]

/-- The C8 rule: `text=/a/;text=/b/` with relation `#1.1#2` and action
`#2:func=X`. -/
def c8Trans : TransE :=
  ⟨[⟨1, [mkExact .ftext "a"]⟩, ⟨2, [mkExact .ftext "b"]⟩],
   [.brel 1 2 ".1"], [.assign 2 .ffunc "X"]⟩

/-- The C8 failing input: a comment line between the two token lines of one
sentence. -/
def c8LinesSplit : List String :=
  ["1\ta\t_\t_\t_\t_\t0\tr\t_\t_", "# c", "2\tb\t_\t_\t_\t_\t1\tr\t_\t_"]

/-- The same sentence without the comment line. -/
def c8LinesJoint : List String :=
  ["1\ta\t_\t_\t_\t_\t0\tr\t_\t_", "2\tb\t_\t_\t_\t_\t1\tr\t_\t_"]

/-! ## Rule parsing (`parse_transformation`, `DefinitionMatcher.__init__`,
`Transformation.__init__`, lines 75-183) and validation (`validate`,
`read_config_file`, lines 125-157 and 269-298) -/

/-- `ALIASES` (line 72) as the action-string replacement pairs of
`handle_aliases` (lines 100-103), in dict insertion order. -/
def actionAliases : List (String × String) :=
  [("form", "text"), ("upostag", "pos"), ("xpostag", "cpos"), ("feats", "morph"),
   ("deprel", "func"), ("deps", "head2"), ("misc", "func2")]

def handleAliases (a : String) : String :=
  actionAliases.foldl (fun s p => pyReplace s (":" ++ p.1 ++ "=") (":" ++ p.2 ++ "=")) a

/-- A parsed sub-definition as `DefinitionMatcher.__init__` stores it before
`Definition` compiles the pattern: criterion text, anchored value, negation. -/
structure DefnP where
  criterion : String
  value : String
  negative : Bool
deriving DecidableEq, Repr

/-- One iteration of the `def_items` loop (lines 169-183).  `.error` carries
the uncaught Python exception: `criterion[-1]` on an empty criterion and
`split("=", 1)[1]` on an item without `=` raise IndexError, and — the C10
point — so does the anchoring check `def_value[0]` when the pattern between
the slashes is empty (line 179). -/
def defItemParse (defItem : String) : Except String DefnP :=
  match (pySplit1 defItem '=')[0]? with
  | none => .error "IndexError"
  | some criterion =>
    match criterion.toList.getLast? with
    | none => .error "IndexError"
    | some lastC =>
      let negative := lastC = '!'
      let criterion2 : String := if negative then ⟨criterion.toList.dropLast⟩ else criterion
      match (pySplit1 defItem '=')[1]? with
      | none => .error "IndexError"
      | some v1 =>
        let dv := pySliceInner v1
        match dv.toList with
        | [] => .error "IndexError"
        | c :: _ =>
          let dv2 := if c ≠ '^' then "^" ++ dv else dv
          let dv3 := if dv2.toList.getLast? ≠ some '$' then dv2 ++ "$" else dv2
          .ok ⟨criterion2, dv3, negative⟩

/-- `DefinitionMatcher.__init__` (lines 162-183): mask `&` inside `/…/`,
split on `&`, unmask, and parse each item. -/
def defMatcherInit (def_text : String) : Except String (List DefnP) :=
  ((pySplit (escapeStr def_text '&' '/') '&').map
    (fun s => pyReplace s "%%%%%" "&")).mapM defItemParse

/-- A transformation as parsed, before validation: per-matcher escaped text
and sub-definitions, relation strings, aliased action strings. -/
structure PDefM where
  def_text : String
  def_index : Nat
  defs : List DefnP
deriving DecidableEq, Repr

structure PTrans where
  definitions : List PDefM
  relations : List String
  actions : List String
deriving DecidableEq, Repr

/-- `parse_transformation` (lines 77-97): `.ok none` is the `return None` on
fewer than three tab-separated parts; more than three raises ValueError at
the unpacking. -/
def parseTransformation (text : String) : Except String (Option PTrans) :=
  match pySplit text '\t' with
  | [d, r, a] =>
    let r2 := normalizeShorthand r
    let a2 := normalizeShorthand a
    let defsL := (pySplit (escapeStr d ';' '/') ';').map (fun s => pyReplace s "%%%%%" ";")
    match defsL.enum.mapM (fun p =>
        (defMatcherInit p.2).map
          (fun ds => (⟨escapeStr p.2 '&' '/', p.1 + 1, ds⟩ : PDefM))) with
    | .error e => .error e
    | .ok definitions =>
      .ok (some ⟨definitions, pySplit r2 ';',
        (pySplit (pyStrip a2) ';').map handleAliases⟩)
  | parts => if parts.length < 3 then .ok none else .error "ValueError"

/-- How a rule-file load dies: a diagnostic printed followed by `sys.exit`,
or an uncaught exception. -/
inductive Abort where
  | exited (msg : String)
  | raised (exc : String)
deriving DecidableEq, Repr

def malformedMsg (n : Nat) : String :=
  "Depedit says: error in configuration file\nMalformed instruction on line " ++
    toString n ++ " (instruction lines must contain exactly two tabs)"

/-- `Transformation.__init__` (lines 115-123): a parse returning `None`
prints the malformed-line diagnostic and exits at once. -/
def transformationInit (text : String) (line : Nat) : Except Abort (PTrans × Nat) :=
  match parseTransformation text with
  | .error e => .error (.raised e)
  | .ok none => .error (.exited (malformedMsg line))
  | .ok (some p) => .ok (p, line)

/-! ### The validation regexes of `validate` (lines 125-157), prefix-match
(`re.match`) semantics hand-rolled -/

def stripPrefixL (p l : List Char) : Option (List Char) :=
  if p.isPrefixOf l then some (l.drop p.length) else none

/-- The field alternation of the node and relation validation regexes, in
source order. -/
def fieldsAlt : List String :=
  ["text", "pos", "cpos", "lemma", "morph", "func", "head", "func2", "head2",
   "num", "form", "upostag", "xpostag", "feats", "deprel", "deps", "misc"]

/-- The field alternation of the action validation regex, in source order. -/
def actFieldsAlt : List String :=
  ["func", "lemma", "text", "pos", "cpos", "morph", "head", "head2", "func2",
   "num", "form", "upostag", "xpostag", "feats", "deprel", "deps", "misc"]

/-- `re.match` of `(fields)!?=/[^/=]*/`. -/
def nodeCritValid (s : String) : Bool :=
  fieldsAlt.any (fun f =>
    match stripPrefixL f.toList s.toList with
    | none => false
    | some r1 =>
      let r2 := match r1 with
        | '!' :: '=' :: rest => some rest
        | '=' :: rest => some rest
        | _ => none
      match r2 with
      | none => false
      | some r3 =>
        match r3 with
        | '/' :: r4 =>
          match r4.drop (r4.takeWhile (fun c => c ≠ '/' ∧ c ≠ '=')).length with
          | '/' :: _ => true
          | _ => false
        | _ => false)

/-- `re.match` of `position!?=/(first|last|mid)/`. -/
def positionCritValid (s : String) : Bool :=
  match stripPrefixL "position".toList s.toList with
  | none => false
  | some r1 =>
    let r2 := match r1 with
      | '!' :: '=' :: rest => some rest
      | '=' :: rest => some rest
      | _ => none
    match r2 with
    | none => false
    | some r3 =>
      match r3 with
      | '/' :: r4 =>
        ["first", "last", "mid"].any (fun w =>
          match stripPrefixL w.toList r4 with
          | some ('/' :: _) => true
          | some _ | none => false)
      | _ => false

/-- `#[0-9]+`: a hash and a nonempty digit run. -/
def lexHashNum : List Char → Option (List Char)
  | '#' :: rest =>
    if (rest.takeWhile (fun c => c.isDigit)).isEmpty then none
    else some (rest.drop (rest.takeWhile (fun c => c.isDigit)).length)
  | _ => none

/-- `>|\.([0-9]+(,[0-9]+)?)?`: the relation operator between two node
references (the optional parts consume greedily; a comma not followed by a
digit run is left unconsumed, exactly as the regex backtracks). -/
def lexRelOp : List Char → Option (List Char)
  | '>' :: rest => some rest
  | '.' :: rest =>
    let ds := rest.takeWhile (fun c => c.isDigit)
    if ds.isEmpty then some rest
    else
      match rest.drop ds.length with
      | ',' :: r3 =>
        if (r3.takeWhile (fun c => c.isDigit)).isEmpty then some (rest.drop ds.length)
        else some (r3.drop (r3.takeWhile (fun c => c.isDigit)).length)
      | r2 => some r2
  | _ => none

/-- `re.match` of the relation criterion regex
`#[0-9]+((>|\.([0-9]+(,[0-9]+)?)?)#[0-9]+)+|#[0-9]+:(fields)==#[0-9]+`:
under prefix semantics one chain step suffices for the `+`. -/
def relCritValid (s : String) : Bool :=
  match lexHashNum s.toList with
  | none => false
  | some r1 =>
    (match lexRelOp r1 with
     | some r2 => (lexHashNum r2).isSome
     | none => false) ||
    (match r1 with
     | ':' :: r2 =>
       fieldsAlt.any (fun f =>
         match stripPrefixL f.toList r2 with
         | some ('=' :: '=' :: r3) => (lexHashNum r3).isSome
         | some _ | none => false)
     | _ => false)

def isAlphaUnd (c : Char) : Bool :=
  c.isAlpha || c = '_'

/-- `re.match` of the two action regexes
`(#[0-9]+>#[0-9]+|#[0-9]+:(fields)=[^;]*)$` and
`#S:[A-Za-z_]+=[A-Za-z_]+$|last$`. -/
def actionCmdValid (s : String) : Bool :=
  (match lexHashNum s.toList with
   | none => false
   | some r1 =>
     match r1 with
     | '>' :: r2 =>
       match lexHashNum r2 with
       | some [] => true
       | some _ | none => false
     | ':' :: r2 =>
       actFieldsAlt.any (fun f =>
         match stripPrefixL f.toList r2 with
         | some ('=' :: r3) => r3.all (fun c => c ≠ ';')
         | some _ | none => false)
     | _ => false) ||
  (match s.toList with
   | '#' :: 'S' :: ':' :: r1 =>
     let k := r1.takeWhile isAlphaUnd
     if k.isEmpty then false
     else
       match r1.drop k.length with
       | '=' :: r2 => !r2.isEmpty && r2.all isAlphaUnd
       | _ => false
   | _ => false) ||
  s = "last"

/-- The node-definition part of `validate` (lines 128-134). -/
def validateNode (dm : PDefM) : String :=
  ((pySplit (escapeStr dm.def_text '&' '/') '&').map
    (fun c => pyReplace c "%%%%%" "&")).foldl
    (fun rep crit =>
      if nodeCritValid crit || positionCritValid crit then rep
      else rep ++ "Invalid node definition in column 1: " ++ crit) ""

/-- `validate` (lines 125-157): node, relation and action reports
concatenated. -/
def validateT (p : PTrans) : String :=
  let nodeRep := p.definitions.foldl (fun rep dm => rep ++ validateNode dm) ""
  let relRep := p.relations.foldl (fun rep relation =>
    if relation = "none" ∧ p.relations.length = 1 then
      (if p.definitions.length > 1 then
        rep ++ "Column 2 setting 'none' invalid with more than one definition in column 1"
      else rep)
    else if relation = "none" then
      rep ++ "Setting 'none' invalid in column 2 when multiple relations are defined"
    else
      (pySplit relation ';').foldl (fun rep2 c =>
        if relCritValid (pyStrip c) then rep2
        else rep2 ++ "Column 2 relation setting invalid criterion: " ++ pyStrip c ++ ".")
        rep) nodeRep
  p.actions.foldl (fun rep action =>
    (pySplit action ';').foldl (fun rep2 cmd =>
      if actionCmdValid cmd then rep2
      else rep2 ++ "Column 3 invalid action definition: " ++ cmd ++
        " and the action was " ++ action) rep) relRep

/-- The non-blank non-comment lines of a rule file with their 1-based line
numbers (lines 280-283). -/
def keptLines (lines : List String) : List (Nat × String) :=
  (lines.enum.map (fun p => (p.1 + 1, p.2))).filter
    (fun p => pyStrip p.2 ≠ "" ∧ ¬ pyStartsWith p.2 ";" ∧ ¬ pyStartsWith p.2 "#")

/-- The accumulated validation report of `read_config_file` (lines 285-290). -/
def reportOf (trs : List (PTrans × Nat)) : String :=
  trs.foldl (fun acc tp =>
    if validateT tp.1 = "" then acc
    else acc ++ ("On line " ++ toString tp.2 ++ ": " ++ validateT tp.1)) ""

/-- `read_config_file` (lines 269-298): construct each kept line's
transformation in order (each bad-tab line exits at once, mid-construction),
then validate them all and exit with the combined report if any part is
nonempty. -/
def readConfig (lines : List String) : Except Abort (List (PTrans × Nat)) :=
  match (keptLines lines).mapM (fun p => transformationInit p.2 p.1) with
  | .error a => .error a
  | .ok trs =>
    if reportOf trs = "" then .ok trs
    else .error (.exited ("Depedit says: error in configuration file\n\n" ++ reportOf trs))

/-! ## Theorems -/

/-- C5: the relation shorthand `.*` is rewritten by `normalize_shorthand` to
`.1,1000`, `matches_relation` extracts that operator from the rewritten
relation, and `test_relation` on `.1,1000` holds iff the integer-coerced id
difference lies between 1 and 1000, both bounds inclusive. -/
theorem c5_star_is_1_1000 (t1 t2 : Tok) (n1 n2 : Int)
    (h1 : pyIntFloat t1.id = some n1) (h2 : pyIntFloat t2.id = some n2) :
    normalizeShorthand "#1.*#2" = "#1.1,1000#2" ∧
    relationOperator "#1.1,1000#2" = some ".1,1000" ∧
    (testRelation t1 t2 ".1,1000" = some true ↔ 1 ≤ n2 - n1 ∧ n2 - n1 ≤ 1000) := by
  refine ⟨by decide, by decide, ?_⟩
  have e : testRelation t1 t2 ".1,1000" =
      some (decide (n2 ≤ 1000 + n1) && decide (1 ≤ n2 - n1)) := by
    simp +decide [testRelation, pyInStr, listInfix, parseDotOp, h1, h2]
  rw [e]
  simp only [Option.some.injEq, Bool.and_eq_true, decide_eq_true_eq]
  omega

/-- Witness for C5 at ids 3 and 5. -/
theorem c5_star_is_1_1000_witness :
    testRelation (exTok "3.0" "a") (exTok "5.0" "b") ".1,1000" = some true := by
  exact ((c5_star_is_1_1000 (exTok "3.0" "a") (exTok "5.0" "b") 3 5 rfl rfl).2.2).mpr (by decide)

/-- C1 (counterexample): on a rule with two complete bindings and the actions
`#1:lemma=X; last`, the code (which loops actions outermost) assigns the
lemma to BOTH bound tokens before `last` is reached, while binding-major
execution as claimed would stop after the first binding, leaving the second
token untouched. -/
theorem c1_counterexample :
    execActionsCode c1St c1Bs c1Acts ≠ execBindingMajorSpec c1St c1Bs c1Acts := by
  intro h
  have hA : (execActionsCode c1St c1Bs c1Acts).map (fun p => p.1.toks.map (·.lemm)) =
      .ok ["X", "X"] := rfl
  rw [h] at hA
  have hB : (execBindingMajorSpec c1St c1Bs c1Acts).map (fun p => p.1.toks.map (·.lemm)) =
      .ok ["X", "_"] := rfl
  rw [hA] at hB
  simp at hB

/-- `execute_action` on one action equals: return the sentinel at once when
the action is `last` and a result set exists, otherwise apply the action to
every result set in order. -/
theorem executeAction_split (st : SentState) (a : ActA) (bs : List Binding) :
    executeAction st a bs =
      if a = ActA.lastA ∧ bs ≠ [] then .ok (st, true)
      else (applyToAllSpec a st bs).map (fun st2 => (st2, false)) := by
  induction bs generalizing st with
  | nil => cases a <;> simp [executeAction, applyToAllSpec, Except.map]
  | cons b rest ih =>
    cases a with
    | lastA => simp [executeAction]
    | sannot key val =>
      simp only [executeAction, applyToAllSpec, applyOneSpec]
      cases h : dictLookupN b.nodes 1 <;> simp [h, Except.map, ih]
    | assign node f value =>
      simp only [executeAction, applyToAllSpec, applyOneSpec]
      cases h : dictLookupN b.nodes node with
      | none => simp [h, Except.map]
      | some ti =>
        cases h2 : expandRefs (assignRaw node f value) b.groups value with
        | error e => simp [h, h2, Except.map]
        | ok v2 =>
          cases h3 : st.toks[ti]? <;> simp [h, h2, h3, Except.map, ih]
    | rewire n1 n2 =>
      simp only [executeAction, applyToAllSpec, applyOneSpec]
      cases h : dictLookupN b.nodes n1 with
      | none => simp [h, Except.map]
      | some t1i =>
        cases h2 : dictLookupN b.nodes n2 with
        | none => simp [h, h2, Except.map]
        | some t2i =>
          by_cases he : t1i = t2i
          · simp [h, h2, he, Except.map, ih]
          · cases h3 : st.toks[t1i]? with
            | none => simp [h, h2, h3, he, Except.map]
            | some t1 =>
              cases h4 : st.toks[t2i]? <;> simp [h, h2, h3, h4, he, Except.map, ih]

/-- C1 (amended): action execution is action-major — the executor takes one
action at a time in declaration order and applies it to every complete
binding in the stable set order before the next action runs; a `last` action
stops all processing the moment it is reached (i.e. when at least one binding
exists). -/
theorem c1_amended (st : SentState) (bs : List Binding) (acts : List ActA) :
    execActionsCode st bs acts = execActionMajorSpec st bs acts := by
  induction acts generalizing st with
  | nil => rfl
  | cons a rest ih =>
    simp only [execActionsCode, execActionMajorSpec, executeAction_split]
    by_cases hl : a = ActA.lastA ∧ bs ≠ []
    · simp [hl]
    · simp only [hl, if_false]
      cases h : applyToAllSpec a st bs <;> simp [Except.map, h, ih]

/-- C4: once a `last` action is reached while executing a rule's actions on a
sentence (the actions before it all ran without stopping, and the binding set
is non-empty), the remaining actions of the rule never run and the state is
returned unchanged from that point; and when a transformation reports the
`last` sentinel, `process_sentence` returns at once, so no later rule touches
the sentence. -/
theorem c4_last_stops :
    (∀ (st st1 : SentState) (bs : List Binding) (pre post : List ActA), bs ≠ [] →
      execActionsCode st bs pre = .ok (st1, false) →
      execActionsCode st bs (pre ++ ActA.lastA :: post) = .ok (st1, true)) ∧
    (∀ (st st2 : SentState) (t : TransE) (rest : List TransE),
      execTransformation st t = .ok (st2, true) →
      processSentence st (t :: rest) = .ok st2) := by
  constructor
  · intro st st1 bs pre post hbs hpre
    induction pre generalizing st with
    | nil =>
      simp only [execActionsCode] at hpre
      obtain ⟨rfl, -⟩ : st = st1 ∧ True := by
        cases hpre; exact ⟨rfl, trivial⟩
      cases bs with
      | nil => exact absurd rfl hbs
      | cons b rest2 => simp [execActionsCode, executeAction]
    | cons a pre ih =>
      simp only [List.cons_append, execActionsCode] at hpre ⊢
      cases h : executeAction st a bs with
      | error e => rw [h] at hpre; simp at hpre
      | ok p =>
        rw [h] at hpre
        obtain ⟨st2, stop⟩ := p
        cases stop with
        | true => simp at hpre
        | false => simpa using ih st2 (by simpa using hpre)
  · intro st st2 t rest ht
    simp [processSentence, ht]

/-- Witness for C4: a one-binding, no-prefix instance. -/
theorem c4_last_stops_witness :
    execActionsCode c1St [⟨[(1, 0)], []⟩] ([] ++ ActA.lastA :: [ActA.assign 1 lemField "Y"]) =
      .ok (c1St, true) := by
  exact c4_last_stops.1 c1St c1St [⟨[(1, 0)], []⟩] [] [ActA.assign 1 lemField "Y"]
    (by simp) rfl

/-- Every reference the scan finds is a dollar sign, a nonempty digit run and
an optional case suffix; `refParts` recovers exactly that digit run. -/
theorem findRefsAux_shape (fuel : Nat) :
    ∀ (l : List Char) (g : String), g ∈ findRefsAux fuel l →
      ∃ ds : List Char, ds ≠ [] ∧ (∀ c ∈ ds, c.isDigit) ∧ (refParts g).2 = ds := by
  induction fuel with
  | zero => intro l g h; simp [findRefsAux] at h
  | succ fuel ih =>
    intro l g h
    match l with
    | [] => simp [findRefsAux] at h
    | c :: rest =>
      simp only [findRefsAux] at h
      by_cases hc : c = '$'
      · rw [if_pos hc] at h
        by_cases hempty : (rest.takeWhile (fun x => x.isDigit)).isEmpty
        · rw [if_pos hempty] at h; exact ih rest g h
        · rw [if_neg hempty] at h
          rcases List.mem_cons.mp h with hg | hg
          · subst hg
            have hne : rest.takeWhile (fun x => x.isDigit) ≠ [] := by
              simpa [List.isEmpty_iff] using hempty
            have hdig : ∀ d ∈ rest.takeWhile (fun x => x.isDigit), d.isDigit := by
              intro d hd; exact List.mem_takeWhile_imp hd
            refine ⟨rest.takeWhile (fun x => x.isDigit), hne, hdig, ?_⟩
            set ds := rest.takeWhile (fun x => x.isDigit) with hds
            set after := rest.drop ds.length with hafter
            show (refParts ⟨'$' :: (ds ++ _)⟩).2 = ds
            by_cases hL : after.head? = some 'L'
            · simp only [refParts, hL, if_pos, if_true]
              show (match (ds ++ ['L']).getLast? with
                | some 'U' => ("upper", (ds ++ ['L']).dropLast)
                | some 'L' => ("lower", (ds ++ ['L']).dropLast)
                | _ => ("", ds ++ ['L'])).2 = ds
              rw [List.getLast?_concat]
              simp [List.dropLast_concat]
            · by_cases hU : after.head? = some 'U'
              · simp only [refParts, hL, hU, if_false, if_true]
                show (match (ds ++ ['U']).getLast? with
                  | some 'U' => ("upper", (ds ++ ['U']).dropLast)
                  | some 'L' => ("lower", (ds ++ ['U']).dropLast)
                  | _ => ("", ds ++ ['U'])).2 = ds
                rw [List.getLast?_concat]
                simp [List.dropLast_concat]
              · simp only [refParts, hL, hU, if_false]
                show (match (ds ++ []).getLast? with
                  | some 'U' => ("upper", (ds ++ []).dropLast)
                  | some 'L' => ("lower", (ds ++ []).dropLast)
                  | _ => ("", ds ++ [])).2 = ds
                rw [List.append_nil]
                rw [List.getLast?_eq_getLast_of_ne_nil hne]
                have hdd : (ds.getLast hne).isDigit := hdig _ (List.getLast_mem hne)
                have hdU : ds.getLast hne ≠ 'U' := by
                  intro hh; rw [hh] at hdd; simp at hdd
                have hdL : ds.getLast hne ≠ 'L' := by
                  intro hh; rw [hh] at hdd; simp at hdd
                split
                next heq => exact absurd (Option.some.inj heq) hdU
                next heq => exact absurd (Option.some.inj heq) hdL
                next => rfl
          · exact ih _ g hg
      · rw [if_neg hc] at h; exact ih rest g h

/-- A found reference always parses to a nonnegative numeric index. -/
theorem refNum_of_mem (l : List Char) (g : String) (hg : g ∈ findRefs l) :
    ∃ k : Int, refNum g = some k ∧ 0 ≤ k := by
  obtain ⟨ds, hne, hdig, hparts⟩ := findRefsAux_shape l.length l g hg
  unfold refNum
  rw [hparts]
  match ds, hne with
  | c :: rest, _ =>
    have hc : c.isDigit := hdig c (List.mem_cons_self c rest)
    have hall : (c :: rest).all (fun x => x.isDigit) := by
      simp only [List.all_eq_true, decide_eq_true_eq]
      exact fun x hx => hdig x hx
    have hcm : c ≠ '-' := by intro hh; rw [hh] at hc; simp at hc
    have hcp : c ≠ '+' := by intro hh; rw [hh] at hc; simp at hc
    show ∃ k : Int, pyInt ⟨c :: rest⟩ = some k ∧ 0 ≤ k
    unfold pyInt
    split
    next heq =>
      exfalso
      have : c = '-' := by
        have := congrArg List.head? heq
        simpa using this
      exact hcm this
    next heq =>
      exfalso
      have : c = '+' := by
        have := congrArg List.head? heq
        simpa using this
      exact hcp this
    next =>
      have hdv : digitsVal (⟨c :: rest⟩ : String).toList =
          some ((c :: rest).foldl (fun acc x => acc * 10 + (x.toNat - 48)) 0) := by
        show digitsVal (c :: rest) = _
        simp [digitsVal, hall]
      refine ⟨(((c :: rest).foldl (fun acc x => acc * 10 + (x.toNat - 48)) 0 : Nat) : Int),
        ?_, Int.natCast_nonneg _⟩
      rw [hdv]
      rfl

/-- The reference loop stops at the first out-of-range reference with the
missing-group diagnostic. -/
theorem refFold_error (raw : String) (groups : List String) :
    ∀ (refs : List String) (v : String),
      (∀ g ∈ refs, ∃ k : Int, refNum g = some k) →
      (∃ g ∈ refs, ∃ k : Int, refNum g = some k ∧ pyGetIdx groups (k - 1) = none) →
      ∃ m : Int, refs.foldlM (refStep raw groups) v = .error (missingGroupMsg raw m) ∧
        pyGetIdx groups (m - 1) = none := by
  intro refs
  induction refs with
  | nil => intro v _ hfail; simp at hfail
  | cons g rest ih =>
    intro v hnum hfail
    obtain ⟨k, hk⟩ := hnum g (List.mem_cons_self g rest)
    rw [List.foldlM_cons]
    cases hidx : pyGetIdx groups (k - 1) with
    | none =>
      refine ⟨k, ?_, hidx⟩
      have hstep : refStep raw groups v g = .error (missingGroupMsg raw k) := by
        simp only [refStep, hk, hidx]
      rw [hstep]
      rfl
    | some gv =>
      have hstep : ∃ v2, refStep raw groups v g = .ok v2 := by
        simp only [refStep, hk, hidx]
        exact ⟨_, rfl⟩
      obtain ⟨v2, hv2⟩ := hstep
      rw [hv2]
      have hfail2 : ∃ g2 ∈ rest, ∃ k2 : Int, refNum g2 = some k2 ∧
          pyGetIdx groups (k2 - 1) = none := by
        obtain ⟨g2, hg2, k2, hk2, hnone⟩ := hfail
        rcases List.mem_cons.mp hg2 with rfl | hmem
        · rw [hk] at hk2
          cases hk2
          rw [hidx] at hnone
          cases hnone
        · exact ⟨g2, hmem, k2, hk2, hnone⟩
      exact ih v2 (fun g2 h2 => hnum g2 (List.mem_cons_of_mem g h2)) hfail2

/-- C9: an assignment whose value carries a back-reference `$n` (with an
optional `L`/`U` suffix) whose index exceeds the number of collected capture
groups fails fatally: the expansion aborts with the diagnostic that names the
action text and a missing group index (the first reference whose Python
lookup `groups[n-1]` raises `IndexError`). -/
theorem c9_missing_capture_group (raw : String) (groups : List String)
    (value g : String) (n : Int)
    (hg : g ∈ findRefs value.toList) (hn : refNum g = some n)
    (hbig : (groups.length : Int) < n) :
    ∃ m : Int, expandRefs raw groups value = .error (missingGroupMsg raw m) ∧
      pyGetIdx groups (m - 1) = none := by
  unfold expandRefs
  apply refFold_error
  · intro g2 h2
    obtain ⟨k, hk, -⟩ := refNum_of_mem value.toList g2 h2
    exact ⟨k, hk⟩
  · refine ⟨g, hg, n, hn, ?_⟩
    unfold pyGetIdx
    have h1 : n - 1 ≥ 0 := by omega
    rw [if_pos h1]
    apply List.getElem?_eq_none
    omega

/-- Witness for C9: `$2` against a single captured group. -/
theorem c9_missing_capture_group_witness :
    ∃ m : Int, expandRefs "#1:text=$2" ["a"] "$2" = .error (missingGroupMsg "#1:text=$2" m) ∧
      pyGetIdx ["a"] (m - 1) = none := by
  exact c9_missing_capture_group "#1:text=$2" ["a"] "$2" "$2" 2 (by decide) (by decide)
    (by decide)

/-! ### Dictionary, heap and matcher-list lemmas (towards C2) -/

theorem mem_defIdxs {k : Nat} {ms : List MatchE} :
    k ∈ defIdxs ms ↔ ∃ m ∈ ms, m.def_index = k := by
  simp [defIdxs]

theorem dictLookupN_none_iff {l : List (Nat × Nat)} {k : Nat} :
    dictLookupN l k = none ↔ k ∉ l.map Prod.fst := by
  unfold dictLookupN
  rw [Option.map_eq_none', List.find?_eq_none]
  simp only [List.mem_map, decide_eq_true_eq]
  constructor
  · intro h hk
    obtain ⟨p, hp, hpk⟩ := hk
    exact h p hp hpk
  · intro h p hp hpk
    exact h ⟨p, hp, hpk⟩

theorem dictLookupN_some_key {l : List (Nat × Nat)} {k v : Nat}
    (h : dictLookupN l k = some v) : k ∈ l.map Prod.fst := by
  by_contra hk
  rw [← dictLookupN_none_iff] at hk
  rw [h] at hk
  cases hk

theorem dictInsert2_keys (n1 n2 a b : Nat) :
    (dictInsertN (dictInsertN [] n1 a) n2 b).map Prod.fst =
      if n2 = n1 then [n1] else [n1, n2] := by
  by_cases h : n2 = n1
  · simp [dictInsertN, h]
  · have h2 : ¬ n1 = n2 := fun hh => h hh.symm
    simp [dictInsertN, h, h2]

theorem relKeys_ne (r : SRel) : relKeys r ≠ [] := by
  cases r with
  | nullRel => simp [relKeys]
  | brel n1 n2 op => by_cases h : n2 = n1 <;> simp [relKeys, h]
  | feq n1 n2 f => by_cases h : n2 = n1 <;> simp [relKeys, h]

theorem relKeys_cases (r : SRel) :
    (∃ a, relKeys r = [a]) ∨ ∃ a b, a ≠ b ∧ relKeys r = [a, b] := by
  cases r with
  | nullRel => exact .inl ⟨1, rfl⟩
  | brel n1 n2 op =>
    by_cases h : n2 = n1
    · exact .inl ⟨n1, by simp [relKeys, h]⟩
    · exact .inr ⟨n1, n2, fun hh => h hh.symm, by simp [relKeys, h]⟩
  | feq n1 n2 f =>
    by_cases h : n2 = n1
    · exact .inl ⟨n1, by simp [relKeys, h]⟩
    · exact .inr ⟨n1, n2, fun hh => h hh.symm, by simp [relKeys, h]⟩

theorem dedupFold_ext (ms base : List MatchE) :
    ∃ ext,
      ms.foldl (fun acc m => if acc.any (·.def_index = m.def_index) then acc else acc ++ [m])
        base = base ++ ext := by
  induction ms generalizing base with
  | nil => exact ⟨[], by simp⟩
  | cons m rest ih =>
    simp only [List.foldl_cons]
    by_cases h : base.any (·.def_index = m.def_index)
    · rw [if_pos h]; exact ih base
    · rw [if_neg h]
      obtain ⟨ext, hext⟩ := ih (base ++ [m])
      exact ⟨m :: ext, by simpa using hext⟩

theorem dedupFold_mem {k : Nat} (ms base : List MatchE)
    (h : k ∈ defIdxs base ∨ k ∈ defIdxs ms) :
    k ∈ defIdxs
      (ms.foldl (fun acc m => if acc.any (·.def_index = m.def_index) then acc else acc ++ [m])
        base) := by
  induction ms generalizing base with
  | nil => simpa [defIdxs] using h.resolve_right (by simp [defIdxs])
  | cons m rest ih =>
    simp only [List.foldl_cons]
    rcases h with hb | hm
    · by_cases hc : base.any (·.def_index = m.def_index)
      · rw [if_pos hc]; exact ih base (.inl hb)
      · rw [if_neg hc]
        refine ih (base ++ [m]) (.inl ?_)
        rw [mem_defIdxs] at hb ⊢
        obtain ⟨m3, hm3, hk3⟩ := hb
        exact ⟨m3, List.mem_append_left _ hm3, hk3⟩
    · rw [mem_defIdxs] at hm
      obtain ⟨m2, hm2, hk⟩ := hm
      rcases List.mem_cons.mp hm2 with rfl | hrest
      · by_cases hc : base.any (·.def_index = m2.def_index)
        · rw [if_pos hc]
          refine ih base (.inl ?_)
          rw [mem_defIdxs]
          simp only [List.any_eq_true, decide_eq_true_eq] at hc
          obtain ⟨m3, hm3, he⟩ := hc
          exact ⟨m3, hm3, by rw [he, hk]⟩
        · rw [if_neg hc]
          refine ih (base ++ [m2]) (.inl ?_)
          rw [mem_defIdxs]
          exact ⟨m2, by simp, hk⟩
      · by_cases hc : base.any (·.def_index = m.def_index)
        · rw [if_pos hc]
          exact ih base (.inr (mem_defIdxs.mpr ⟨m2, hrest, hk⟩))
        · rw [if_neg hc]
          exact ih (base ++ [m]) (.inr (mem_defIdxs.mpr ⟨m2, hrest, hk⟩))

theorem heapLe_refl (h : List (List MatchE)) : heapLe h h :=
  ⟨le_refl _, fun _ _ => ⟨[], by simp⟩⟩

theorem heapLe_trans {a b c : List (List MatchE)} (h1 : heapLe a b) (h2 : heapLe b c) :
    heapLe a c := by
  refine ⟨le_trans h1.1 h2.1, fun i hi => ?_⟩
  obtain ⟨x, hx⟩ := h1.2 i hi
  obtain ⟨y, hy⟩ := h2.2 i (lt_of_lt_of_le hi h1.1)
  exact ⟨x ++ y, by rw [hy, hx, List.append_assoc]⟩

theorem heapLe_append (h : List (List MatchE)) (x : List MatchE) :
    heapLe h (h ++ [x]) := by
  refine ⟨by simp, fun i hi => ⟨[], ?_⟩⟩
  simp [heapGet, List.getElem?_append_left hi]

theorem heapGet_append_new (h : List (List MatchE)) (x : List MatchE) :
    heapGet (h ++ [x]) h.length = x := by
  simp [heapGet, List.getElem?_append_right (le_refl _)]

theorem heapLe_set (h : List (List MatchE)) (i : Nat) (ext : List MatchE) :
    heapLe h (h.set i (heapGet h i ++ ext)) := by
  refine ⟨by simp, fun j hj => ?_⟩
  by_cases he : i = j
  · subst he
    exact ⟨ext, by simp [heapGet, List.getElem?_set_self hj]⟩
  · exact ⟨[], by simp [heapGet, List.getElem?_set_ne he]⟩

theorem heapGet_set_ne (h : List (List MatchE)) {i j : Nat} (hne : i ≠ j)
    (x : List MatchE) : heapGet (h.set i x) j = heapGet h j := by
  simp [heapGet, List.getElem?_set_ne hne]

theorem BinInv.mono {avail : SRel → Prop} {h h2 : List (List MatchE)} {b : BinE}
    (hle : heapLe h h2) (hb : BinInv avail h b) : BinInv avail h2 b := by
  obtain ⟨ext, hext⟩ := hle.2 b.mref hb.mref_lt
  exact ⟨hb.rels_ne, hb.rels_nodup, hb.rels_avail, hb.rels_keys, hb.nodes_ne,
    lt_of_lt_of_le hb.mref_lt hle.1,
    fun k hk => by
      rw [hext, defIdxs, List.map_append]
      exact List.mem_append_left _ (hb.keys_idx k hk)⟩

/-! ### Well-formedness through the match phase and relation loop -/

theorem matchPhase_wf (defs : List DefMatcherE) (toks : List Tok) :
    NMwf (matchPhase defs toks) := by
  intro n m hm
  simp only [matchPhase, List.mem_flatten, List.mem_map] at hm
  obtain ⟨l, ⟨dm, hdm, rfl⟩, hml⟩ := hm
  have hidx : dm.def_index = n := by
    simpa using (List.mem_filter.mp hdm).2
  simp only [matcherHits, List.mem_filterMap] at hml
  obtain ⟨i, -, hi⟩ := hml
  rcases h1 : toks[i]? with _ | t <;> rw [h1] at hi
  · cases hi
  · by_cases hsup : t.is_super_tok
    · simp [hsup] at hi
    · simp only [hsup, if_false, Bool.false_eq_true] at hi
      rcases h2 : dm.matchTok t with _ | gs <;> rw [h2] at hi
      · cases hi
      · have he : (MatchE.mk dm.def_index i gs) = m := by simpa using hi
        rw [← he]
        exact hidx

theorem pruneNM_wf {nm : Nat → List MatchE} (h : NMwf nm) (n1 n2 : Nat)
    (mt1 mt2 : List Nat) : NMwf (pruneNM nm n1 n2 mt1 mt2) := by
  intro n m hm
  unfold pruneNM at hm
  by_cases hc : n = n1 ∨ n = n2
  · rw [if_pos hc] at hm
    exact h n m (List.mem_filter.mp hm).1
  · rw [if_neg hc] at hm
    exact h n m hm

/-- Every result set appended by the inner candidate loop has the canonical
pairwise shape. -/
theorem relPairsInner_shape (toks : List Tok) (op : String) (r : SRel) (n1 n2 : Nat)
    (m1 : MatchE) :
    ∀ (ms2 : List MatchE) (acc out : List RSet × List Nat × List Nat × Nat),
      relPairsInner toks op r n1 n2 m1 acc ms2 = some out →
      ∀ s ∈ out.1, s ∈ acc.1 ∨
        ∃ m2 ∈ ms2,
          s = ⟨dictInsertN (dictInsertN [] n1 m1.tokIdx) n2 m2.tokIdx, r, [m1, m2]⟩ := by
  intro ms2
  induction ms2 with
  | nil =>
    intro acc out h s hs
    rw [relPairsInner] at h
    cases h
    exact .inl hs
  | cons m2 rest ih =>
    intro acc out h s hs
    rcases h1 : toks[m1.tokIdx]? with _ | t1 <;>
      rcases h2 : toks[m2.tokIdx]? with _ | t2 <;>
      simp only [relPairsInner, h1, h2] at h
    · exact Option.noConfusion h
    · exact Option.noConfusion h
    · exact Option.noConfusion h
    · rcases h3 : testRelation t1 t2 op with _ | b <;> rw [h3] at h
      · exact Option.noConfusion h
      · cases b
        · rcases ih acc out h s hs with hacc | ⟨m2x, hm2x, hs2⟩
          · exact .inl hacc
          · exact .inr ⟨m2x, List.mem_cons_of_mem _ hm2x, hs2⟩
        · rcases ih _ out h s hs with hacc | ⟨m2x, hm2x, hs2⟩
          · rcases List.mem_append.mp hacc with hl | hr
            · exact .inl hl
            · refine .inr ⟨m2, List.mem_cons_self _ _, ?_⟩
              simpa using hr
          · exact .inr ⟨m2x, List.mem_cons_of_mem _ hm2x, hs2⟩

/-- Every result set appended by the nested candidate loops has the canonical
pairwise shape. -/
theorem relPairsOuter_shape (toks : List Tok) (op : String) (r : SRel) (n1 n2 : Nat)
    (ms2 : List MatchE) :
    ∀ (ms1 : List MatchE) (acc out : List RSet × List Nat × List Nat × Nat),
      relPairsOuter toks op r n1 n2 ms2 acc ms1 = some out →
      ∀ s ∈ out.1, s ∈ acc.1 ∨
        ∃ m1 ∈ ms1, ∃ m2 ∈ ms2,
          s = ⟨dictInsertN (dictInsertN [] n1 m1.tokIdx) n2 m2.tokIdx, r, [m1, m2]⟩ := by
  intro ms1
  induction ms1 with
  | nil =>
    intro acc out h s hs
    rw [relPairsOuter] at h
    cases h
    exact .inl hs
  | cons m1 rest ih =>
    intro acc out h s hs
    rw [relPairsOuter] at h
    rcases hin : relPairsInner toks op r n1 n2 m1 acc ms2 with _ | acc2 <;> rw [hin] at h
    · cases h
    · rcases ih acc2 out h s hs with hacc2 | ⟨m1x, hm1x, hsx⟩
      · rcases relPairsInner_shape toks op r n1 n2 m1 ms2 acc acc2 hin s hacc2 with
          hacc | ⟨m2x, hm2x, hsx⟩
        · exact .inl hacc
        · exact .inr ⟨m1, List.mem_cons_self _ _, m2x, hm2x, hsx⟩
      · exact .inr ⟨m1x, List.mem_cons_of_mem _ hm1x, hsx⟩

theorem relPairs_shape (toks : List Tok) (op : String) (r : SRel) (n1 n2 : Nat)
    (ms1 ms2 : List MatchE) (out : List RSet × List Nat × List Nat × Nat)
    (h : relPairs toks op r n1 n2 ms1 ms2 = some out) :
    ∀ s ∈ out.1,
      ∃ m1 ∈ ms1, ∃ m2 ∈ ms2,
        s = ⟨dictInsertN (dictInsertN [] n1 m1.tokIdx) n2 m2.tokIdx, r, [m1, m2]⟩ := by
  intro s hs
  rcases relPairsOuter_shape toks op r n1 n2 ms2 ms1 _ out h s hs with hacc | hx
  · cases hacc
  · exact hx

/-- A pairwise set with the canonical shape and correctly indexed matchers is
well-formed. -/
theorem wfset_pair {r : SRel} {n1 n2 : Nat} {a b : Nat} {m1 m2 : MatchE}
    (hkeys : relKeys r = if n2 = n1 then [n1] else [n1, n2])
    (h1 : m1.def_index = n1) (h2 : m2.def_index = n2) :
    WFSet ⟨dictInsertN (dictInsertN [] n1 a) n2 b, r, [m1, m2]⟩ := by
  constructor
  · show (dictInsertN (dictInsertN [] n1 a) n2 b).map Prod.fst = relKeys _
    rw [dictInsert2_keys, hkeys]
  · intro k
    show k ∈ defIdxs [m1, m2] ↔ k ∈ relKeys _
    rw [hkeys]
    by_cases he : n2 = n1 <;> simp [defIdxs, h1, h2, he]

/-- `matches_relation` appends only well-formed sets tagged with the
evaluated relation, and preserves `node_matches` well-formedness. -/
theorem matchesRelation_shape {toks : List Tok} {nm : Nat → List MatchE} {r : SRel}
    {sets : List RSet} {nm2 : Nat → List MatchE} {hits : Nat}
    (hwf : NMwf nm) (h : matchesRelation toks nm r = some (sets, nm2, hits)) :
    (∀ s ∈ sets, WFSet s ∧ s.rel = r) ∧ NMwf nm2 := by
  cases r with
  | nullRel =>
    simp only [matchesRelation, Option.some.injEq, Prod.mk.injEq] at h
    obtain ⟨hsets, hnm, -⟩ := h
    subst hsets hnm
    refine ⟨?_, hwf⟩
    intro s hs
    simp only [List.mem_map] at hs
    obtain ⟨m, hm, rfl⟩ := hs
    have hidx := hwf 1 m hm
    refine ⟨⟨by simp [dictInsertN, relKeys], ?_⟩, rfl⟩
    intro k
    simp [defIdxs, relKeys, hidx]
  | brel n1 n2 op =>
    simp only [matchesRelation] at h
    rcases hp : relPairs toks op (SRel.brel n1 n2 op) n1 n2 (nm n1) (nm n2) with _ | quad <;>
      rw [hp] at h
    · cases h
    · obtain ⟨sets1, mt1, mt2, hits1⟩ := quad
      simp only [Option.some.injEq, Prod.mk.injEq] at h
      obtain ⟨hsets, hnm, -⟩ := h
      subst hsets hnm
      refine ⟨?_, pruneNM_wf hwf n1 n2 mt1 mt2⟩
      intro s hs
      obtain ⟨m1, hm1, m2, hm2, rfl⟩ := relPairs_shape _ _ _ _ _ _ _ _ hp s hs
      exact ⟨wfset_pair (by simp [relKeys]) (hwf n1 m1 hm1) (hwf n2 m2 hm2), rfl⟩
  | feq n1 n2 f =>
    simp only [matchesRelation] at h
    rcases hp : relPairs toks (fieldStr f) (SRel.feq n1 n2 f) n1 n2 (nm n1) (nm n2) with _ | quad <;>
      rw [hp] at h
    · cases h
    · obtain ⟨sets1, mt1, mt2, hits1⟩ := quad
      simp only [Option.some.injEq, Prod.mk.injEq] at h
      obtain ⟨hsets, hnm, -⟩ := h
      subst hsets hnm
      refine ⟨?_, pruneNM_wf hwf n1 n2 mt1 mt2⟩
      intro s hs
      obtain ⟨m1, hm1, m2, hm2, rfl⟩ := relPairs_shape _ _ _ _ _ _ _ _ hp s hs
      exact ⟨wfset_pair (by simp [relKeys]) (hwf n1 m1 hm1) (hwf n2 m2 hm2), rfl⟩

/-- Splitting the relation loop at an intermediate point. -/
theorem relLoop_append (toks : List Tok) (l1 l2 : List SRel) :
    ∀ (nm : Nat → List MatchE) (sets0 : List RSet),
      relLoop toks (l1 ++ l2) nm sets0 =
        match relLoop toks l1 nm sets0 with
        | none => none
        | some (s, nmx) => relLoop toks l2 nmx s := by
  induction l1 with
  | nil => intro nm sets0; rfl
  | cons r rest ih =>
    intro nm sets0
    show relLoop toks (r :: (rest ++ l2)) nm sets0 = _
    rw [relLoop, relLoop]
    rcases hm : matchesRelation toks nm r with _ | trip
    · rfl
    · obtain ⟨ns, nmx, hits⟩ := trip
      exact ih nmx _

/-- Everything in the final `result_sets` either survived from the initial
sets or is a well-formed pairwise set of one of the loop's relations; the
final `node_matches` stays well-formed. -/
theorem relLoop_mem (toks : List Tok) :
    ∀ (rels : List SRel) (nm : Nat → List MatchE) (sets0 setsF : List RSet)
      (nmF : Nat → List MatchE),
      NMwf nm → relLoop toks rels nm sets0 = some (setsF, nmF) →
      (∀ s ∈ setsF, s ∈ sets0 ∨ (WFSet s ∧ s.rel ∈ rels)) ∧ NMwf nmF := by
  intro rels
  induction rels with
  | nil =>
    intro nm sets0 setsF nmF hwf h
    rw [relLoop] at h
    obtain ⟨rfl, rfl⟩ : sets0 = setsF ∧ nm = nmF := by
      simpa [Prod.ext_iff] using h
    exact ⟨fun s hs => .inl hs, hwf⟩
  | cons r rest ih =>
    intro nm sets0 setsF nmF hwf h
    rw [relLoop] at h
    rcases hm : matchesRelation toks nm r with _ | trip <;> rw [hm] at h
    · cases h
    · obtain ⟨ns, nm2, hits⟩ := trip
      obtain ⟨hshape, hwf2⟩ := matchesRelation_shape hwf hm
      obtain ⟨hmem, hwfF⟩ := ih nm2 _ setsF nmF hwf2 h
      refine ⟨?_, hwfF⟩
      intro s hs
      rcases hmem s hs with hs0 | ⟨hwfs, hrel⟩
      · by_cases hz : hits = 0
        · rw [if_pos hz] at hs0
          cases hs0
        · rw [if_neg hz] at hs0
          rcases List.mem_append.mp hs0 with hl | hr
          · exact .inl hl
          · obtain ⟨hwfs, hrel⟩ := hshape s hr
            exact .inr ⟨hwfs, by rw [hrel]; exact List.mem_cons_self _ _⟩
      · exact .inr ⟨hwfs, List.mem_cons_of_mem _ hrel⟩

/-! ### The seeding loop of `merge_sets` preserves the bin invariant -/

/-- `merge_bins` on a well-formed seed against an invariant bin: the heap
changes only by extending that bin's cell, and a produced candidate satisfies
the invariant again. -/
theorem mergeBins_inv {avail : SRel → Prop} {heap : List (List MatchE)}
    {s : RSet} {newRef : Nat} {myBin : BinE}
    (hs : WFSet s) (ha : avail s.rel)
    (hcell : heapGet heap newRef = s.matchers)
    (hb : BinInv avail heap myBin)
    (hcompat : binsCompatible heap ⟨s.nodes, [s.rel], newRef⟩ myBin = true) :
    ∃ ext,
      (mergeBins heap ⟨s.nodes, [s.rel], newRef⟩ myBin).1 =
        heap.set myBin.mref (heapGet heap myBin.mref ++ ext) ∧
      ∀ cand, (mergeBins heap ⟨s.nodes, [s.rel], newRef⟩ myBin).2 = some cand →
        BinInv avail (mergeBins heap ⟨s.nodes, [s.rel], newRef⟩ myBin).1 cand := by
  obtain ⟨ext, hext⟩ := dedupFold_ext s.matchers (heapGet heap myBin.mref)
  have hl2 : (heapGet heap (⟨s.nodes, [s.rel], newRef⟩ : BinE).mref).foldl
      (fun acc m => if acc.any (·.def_index = m.def_index) then acc else acc ++ [m])
      (heapGet heap myBin.mref) = heapGet heap myBin.mref ++ ext := by
    show (heapGet heap newRef).foldl _ _ = _
    rw [hcell]
    exact hext
  have hfst : (mergeBins heap ⟨s.nodes, [s.rel], newRef⟩ myBin).1 =
      heap.set myBin.mref (heapGet heap myBin.mref ++ ext) := by
    unfold mergeBins
    rw [hl2]
    rcases hf0 : List.find? (fun p => (dictLookupN myBin.nodes p.1).isNone)
        (⟨s.nodes, [s.rel], newRef⟩ : BinE).nodes with _ | p <;>
      simp [hf0]
  refine ⟨ext, hfst, ?_⟩
  intro cand hcand
  rw [hfst]
  unfold mergeBins at hcand
  rw [hl2] at hcand
  rcases hf : s.nodes.find? (fun p => (dictLookupN myBin.nodes p.1).isNone) with _ | p
  · rw [show (⟨s.nodes, [s.rel], newRef⟩ : BinE).nodes.find?
        (fun p => (dictLookupN myBin.nodes p.1).isNone) = none from hf] at hcand
    cases hcand
  · rw [show (⟨s.nodes, [s.rel], newRef⟩ : BinE).nodes.find?
        (fun p => (dictLookupN myBin.nodes p.1).isNone) = some p from hf] at hcand
    have hp_mem : p ∈ s.nodes := List.mem_of_find?_eq_some hf
    have hp_none : dictLookupN myBin.nodes p.1 = none := by
      have := List.find?_some hf
      simpa [Option.isNone_iff_eq_none] using this
    have hp1keys : p.1 ∈ relKeys s.rel := by
      rw [← hs.1]
      exact List.mem_map_of_mem Prod.fst hp_mem
    have hp1not : p.1 ∉ myBin.nodes.map Prod.fst := dictLookupN_none_iff.mp hp_none
    have hnotin : s.rel ∉ myBin.rels := fun hmem =>
      hp1not (hb.rels_keys s.rel hmem p.1 hp1keys)
    obtain rfl : cand = ⟨myBin.nodes ++ [p], myBin.rels ++ [s.rel], myBin.mref⟩ := by
      simp only [List.getLast?_singleton, Option.some.injEq] at hcand
      exact hcand.symm
    have hover : ([s.rel] = myBin.rels) ∨
        (heapGet heap newRef = heapGet heap myBin.mref) ∨
        ∃ q ∈ s.nodes, dictLookupN myBin.nodes q.1 = some q.2 := by
      unfold binsCompatible at hcompat
      simp only [Bool.and_eq_true, Bool.or_eq_true, decide_eq_true_eq,
        List.any_eq_true] at hcompat
      tauto
    have hq : ∃ q0 ∈ relKeys s.rel, q0 ∈ myBin.nodes.map Prod.fst := by
      rcases hover with h1 | h2 | h3
      · exact absurd (h1 ▸ List.mem_cons_self s.rel []) hnotin
      · have hsub : ∀ k ∈ myBin.nodes.map Prod.fst, k ∈ relKeys s.rel := by
          intro k hk
          have hki := hb.keys_idx k hk
          rw [← h2, hcell] at hki
          exact (hs.2 k).mp hki
        obtain ⟨x, hx⟩ : ∃ x, x ∈ myBin.nodes.map Prod.fst := by
          rcases hmn : myBin.nodes with _ | ⟨y, ys⟩
          · exact absurd hmn hb.nodes_ne
          · exact ⟨y.1, by simp⟩
        exact ⟨x, hsub x hx, hx⟩
      · obtain ⟨q, hqmem, hql⟩ := h3
        exact ⟨q.1, by rw [← hs.1]; exact List.mem_map_of_mem Prod.fst hqmem,
          dictLookupN_some_key hql⟩
    have huniq : ∀ k ∈ relKeys s.rel, k ∉ myBin.nodes.map Prod.fst → k = p.1 := by
      intro k hk hknot
      obtain ⟨q0, hq0rel, hq0in⟩ := hq
      rcases relKeys_cases s.rel with ⟨a, hA⟩ | ⟨a, b, hab, hAB⟩
      · rw [hA] at hk hq0rel
        simp only [List.mem_singleton] at hk hq0rel
        subst hk
        subst hq0rel
        exact absurd hq0in hknot
      · rw [hAB] at hk hq0rel hp1keys
        simp only [List.mem_cons, List.mem_singleton, List.not_mem_nil,
          or_false] at hk hq0rel hp1keys
        rcases hq0rel with rfl | rfl
        · rcases hk with rfl | rfl
          · exact absurd hq0in hknot
          · rcases hp1keys with h | h
            · exact absurd (h ▸ hq0in) hp1not
            · exact h.symm
        · rcases hk with rfl | rfl
          · rcases hp1keys with h | h
            · exact h.symm
            · exact absurd (h ▸ hq0in) hp1not
          · exact absurd hq0in hknot
    have hkeys_new : (myBin.nodes ++ [p]).map Prod.fst =
        myBin.nodes.map Prod.fst ++ [p.1] := by
      simp
    refine ⟨by simp, ?_, ?_, ?_, by simp, ?_, ?_⟩
    · simp only [List.nodup_append, List.nodup_singleton, true_and]
      refine ⟨hb.rels_nodup, ?_⟩
      intro r hr
      simp only [List.mem_singleton]
      intro hrr
      exact hnotin (hrr ▸ hr)
    · intro r hr
      rcases List.mem_append.mp hr with h | h
      · exact hb.rels_avail r h
      · simp only [List.mem_singleton] at h
        exact h ▸ ha
    · intro r hr k hk
      rw [hkeys_new]
      rcases List.mem_append.mp hr with h | h
      · exact List.mem_append_left _ (hb.rels_keys r h k hk)
      · simp only [List.mem_singleton] at h
        subst h
        by_cases hkin : k ∈ myBin.nodes.map Prod.fst
        · exact List.mem_append_left _ hkin
        · rw [huniq k hk hkin]
          simp
    · show myBin.mref < (heap.set myBin.mref (heapGet heap myBin.mref ++ ext)).length
      simpa using hb.mref_lt
    · intro k hk
      rw [hkeys_new] at hk
      have hcellnew : heapGet (heap.set myBin.mref (heapGet heap myBin.mref ++ ext))
          myBin.mref = heapGet heap myBin.mref ++ ext := by
        simp [heapGet, List.getElem?_set_self hb.mref_lt]
      show k ∈ defIdxs (heapGet (heap.set myBin.mref (heapGet heap myBin.mref ++ ext))
        myBin.mref)
      rw [hcellnew, ← hext]
      rcases List.mem_append.mp hk with h | h
      · exact dedupFold_mem _ _ (.inl (hb.keys_idx k h))
      · simp only [List.mem_singleton] at h
        subst h
        refine dedupFold_mem _ _ (.inr ?_)
        exact (hs.2 p.1).mpr hp1keys

/-- The seeding inner loop: starting from a state whose bins all satisfy the
invariant and whose seed cell holds the seed's matchers, the loop preserves
the invariant for every bin (the iterated ones and the accumulated merge
results) and never touches the seed cell. -/
theorem seedFold_inv {avail : SRel → Prop} {s : RSet} {newRef : Nat}
    (hs : WFSet s) (ha : avail s.rel) (allBins : List BinE) :
    ∀ (pending : List BinE) (acc : List (List MatchE) × List BinE),
      (∀ b ∈ pending, b ∈ allBins) →
      (∀ b ∈ allBins, BinInv avail acc.1 b) →
      (∀ b ∈ acc.2, BinInv avail acc.1 b) →
      (∀ b ∈ allBins, b.mref ≠ newRef) →
      heapGet acc.1 newRef = s.matchers →
      (∀ b ∈ allBins,
        BinInv avail (pending.foldl (seedMergeStep ⟨s.nodes, [s.rel], newRef⟩) acc).1 b) ∧
      (∀ b ∈ (pending.foldl (seedMergeStep ⟨s.nodes, [s.rel], newRef⟩) acc).2,
        BinInv avail (pending.foldl (seedMergeStep ⟨s.nodes, [s.rel], newRef⟩) acc).1 b) ∧
      heapGet (pending.foldl (seedMergeStep ⟨s.nodes, [s.rel], newRef⟩) acc).1 newRef =
        s.matchers ∧
      heapLe acc.1 (pending.foldl (seedMergeStep ⟨s.nodes, [s.rel], newRef⟩) acc).1 := by
  intro pending
  induction pending with
  | nil =>
    intro acc _ hall hacc2 _ hcellacc
    exact ⟨hall, hacc2, hcellacc, heapLe_refl _⟩
  | cons myBin rest ih =>
    intro acc hpend hall hacc2 hne hcellacc
    rw [List.foldl_cons]
    have hmyBin : BinInv avail acc.1 myBin := hall myBin (hpend myBin (List.mem_cons_self _ _))
    by_cases hc : binsCompatible acc.1 ⟨s.nodes, [s.rel], newRef⟩ myBin = true
    · obtain ⟨ext, hfst, hcand⟩ := mergeBins_inv hs ha hcellacc hmyBin hc
      have hle : heapLe acc.1 (mergeBins acc.1 ⟨s.nodes, [s.rel], newRef⟩ myBin).1 := by
        rw [hfst]
        exact heapLe_set _ _ _
      have hstep : seedMergeStep ⟨s.nodes, [s.rel], newRef⟩ acc myBin =
          ((mergeBins acc.1 ⟨s.nodes, [s.rel], newRef⟩ myBin).1,
            match (mergeBins acc.1 ⟨s.nodes, [s.rel], newRef⟩ myBin).2 with
            | some cand => acc.2 ++ [cand]
            | none => acc.2) := by
        unfold seedMergeStep
        rw [if_pos hc]
        rcases hmb : mergeBins acc.1 ⟨s.nodes, [s.rel], newRef⟩ myBin with ⟨h2, c⟩
        rcases c with _ | cand <;> simp
      have hcellnew : heapGet (mergeBins acc.1 ⟨s.nodes, [s.rel], newRef⟩ myBin).1 newRef =
          s.matchers := by
        rw [hfst, heapGet_set_ne _ (hne myBin (hpend myBin (List.mem_cons_self _ _))) _]
        exact hcellacc
      obtain ⟨A, B, C, D⟩ := ih (seedMergeStep ⟨s.nodes, [s.rel], newRef⟩ acc myBin)
        (fun b hb => hpend b (List.mem_cons_of_mem _ hb))
        (by
          intro b hb
          rw [hstep]
          exact (hall b hb).mono hle)
        (by
          intro b hb
          rw [hstep] at hb ⊢
          rcases hmb : (mergeBins acc.1 ⟨s.nodes, [s.rel], newRef⟩ myBin).2 with _ | cand <;>
            rw [hmb] at hb
          · exact (hacc2 b hb).mono hle
          · rcases List.mem_append.mp hb with h | h
            · exact (hacc2 b h).mono hle
            · simp only [List.mem_singleton] at h
              subst h
              exact hcand b hmb)
        hne
        (by rw [hstep]; exact hcellnew)
      refine ⟨A, B, C, heapLe_trans ?_ D⟩
      rw [hstep]
      exact hle
    · have hstep : seedMergeStep ⟨s.nodes, [s.rel], newRef⟩ acc myBin = acc := by
        unfold seedMergeStep
        rw [if_neg hc]
      rw [hstep]
      exact ih _ (fun b hb => hpend b (List.mem_cons_of_mem _ hb)) hall hacc2 hne hcellacc

/-- One `seedStep` preserves the invariant for every bin. -/
theorem seedStep_inv {avail : SRel → Prop} {st : MergeSt} {s : RSet}
    (hs : WFSet s) (ha : avail s.rel)
    (hb : ∀ b ∈ st.bins, BinInv avail st.heap b) :
    ∀ b ∈ (seedStep st s).bins, BinInv avail (seedStep st s).heap b := by
  have hle1 : heapLe st.heap (st.heap ++ [s.matchers]) := heapLe_append _ _
  have hall1 : ∀ b ∈ st.bins, BinInv avail (st.heap ++ [s.matchers]) b :=
    fun b hbb => (hb b hbb).mono hle1
  have hne : ∀ b ∈ st.bins, b.mref ≠ st.heap.length :=
    fun b hbb => Nat.ne_of_lt (hb b hbb).mref_lt
  have hcell : heapGet (st.heap ++ [s.matchers]) st.heap.length = s.matchers :=
    heapGet_append_new _ _
  obtain ⟨hfinAll, hfinAdded, hfinCell, hfinLe⟩ :=
    seedFold_inv hs ha st.bins st.bins ((st.heap ++ [s.matchers], []))
      (fun b hbb => hbb) hall1 (fun b hbb => by cases hbb) hne hcell
  intro b hbb
  show BinInv avail
    (st.bins.foldl (seedMergeStep ⟨s.nodes, [s.rel], st.heap.length⟩)
      ((st.heap ++ [s.matchers], []))).1 b
  rcases List.mem_append.mp hbb with hbb2 | hnew
  · rcases List.mem_append.mp hbb2 with hold | hadd
    · exact hfinAll b hold
    · exact hfinAdded b hadd
  · simp only [List.mem_singleton] at hnew
    subst hnew
    have hlen : st.heap.length <
        (st.bins.foldl (seedMergeStep ⟨s.nodes, [s.rel], st.heap.length⟩)
          ((st.heap ++ [s.matchers], []))).1.length := by
      refine lt_of_lt_of_le ?_ hfinLe.1
      simp
    refine ⟨by simp, List.nodup_singleton _, ?_, ?_, ?_, hlen, ?_⟩
    · intro r hr
      simp only [List.mem_singleton] at hr
      exact hr ▸ ha
    · intro r hr k hk
      simp only [List.mem_singleton] at hr
      subst hr
      show k ∈ s.nodes.map Prod.fst
      rw [hs.1]
      exact hk
    · intro hempty
      have hempty2 : s.nodes = [] := hempty
      have hmap := hs.1
      rw [hempty2] at hmap
      exact relKeys_ne s.rel hmap.symm
    · intro k hk
      show k ∈ defIdxs (heapGet _ st.heap.length)
      rw [hfinCell]
      have hk2 : k ∈ s.nodes.map Prod.fst := hk
      rw [hs.1] at hk2
      exact (hs.2 k).mpr hk2

/-- The whole seeding pass: every bin satisfies the invariant, with
availability "appears among the seeded sets' relations". -/
theorem seeds_inv (sets : List RSet) (hwf : ∀ s ∈ sets, WFSet s) :
    ∀ b ∈ (sets.foldl seedStep ⟨[], []⟩).bins,
      BinInv (fun r => r ∈ sets.map RSet.rel) (sets.foldl seedStep ⟨[], []⟩).heap b := by
  suffices h : ∀ (pending : List RSet) (st : MergeSt),
      (∀ s ∈ pending, s ∈ sets) →
      (∀ b ∈ st.bins, BinInv (fun r => r ∈ sets.map RSet.rel) st.heap b) →
      ∀ b ∈ (pending.foldl seedStep st).bins,
        BinInv (fun r => r ∈ sets.map RSet.rel) (pending.foldl seedStep st).heap b by
    exact h sets ⟨[], []⟩ (fun s hs => hs) (fun b hb => by cases hb)
  intro pending
  induction pending with
  | nil => intro st _ hb; exact hb
  | cons s rest ih =>
    intro st hpend hb
    rw [List.foldl_cons]
    exact ih (seedStep st s) (fun x hx => hpend x (List.mem_cons_of_mem _ hx))
      (seedStep_inv (hwf s (hpend s (List.mem_cons_self _ _)))
        (List.mem_map_of_mem RSet.rel (hpend s (List.mem_cons_self _ _))) hb)

/-- A fold whose step fixes the accumulator on every list element is the
identity. -/
theorem foldl_const {α β : Type} (f : β → α → β) (l : List α) (i : β)
    (h : ∀ acc, ∀ x ∈ l, f acc x = acc) : l.foldl f i = i := by
  induction l generalizing i with
  | nil => rfl
  | cons x rest ih =>
    rw [List.foldl_cons, h i x (List.mem_cons_self _ _)]
    exact ih _ (fun acc y hy => h acc y (List.mem_cons_of_mem _ hy))

/-- The in-place completion scan never promotes a bin whose duplicate-free
rels stay below `rel_count`: the appended rels keep the list duplicate-free
and drawn from the sets' relations, so the count can never reach
`rel_count`. -/
theorem solutionScan_no_hit (sets : List RSet) (relCount : Nat) (b : BinE)
    (hnodup : b.rels.Nodup) (hmem : ∀ r ∈ b.rels, r ∈ sets.map RSet.rel)
    (hsmall : ∀ rels : List SRel, rels.Nodup → (∀ r ∈ rels, r ∈ sets.map RSet.rel) →
      rels.length < relCount) :
    (solutionScan sets relCount b).2 = false := by
  unfold solutionScan
  suffices h : ∀ (pending : List RSet) (acc : List SRel × Bool),
      (∀ s ∈ pending, s ∈ sets) → acc.1.Nodup →
      (∀ r ∈ acc.1, r ∈ sets.map RSet.rel) → acc.2 = false →
      (pending.foldl
        (fun (acc : List SRel × Bool) s =>
          if s.rel ∈ acc.1 then acc
          else if s.nodes.all (fun p => (dictLookupN b.nodes p.1).isSome) then
            if s.nodes.all (fun p => dictLookupN b.nodes p.1 = some p.2) then
              let r2 := acc.1 ++ [s.rel]
              (r2, acc.2 || r2.length = relCount)
            else acc
          else acc)
        acc).2 = false by
    exact h sets (b.rels, false) (fun s hs => hs) hnodup hmem rfl
  intro pending
  induction pending with
  | nil => intro acc _ _ _ hacc; exact hacc
  | cons s rest ih =>
    intro acc hpend hnd hmm2 hfalse
    rw [List.foldl_cons]
    by_cases h1 : s.rel ∈ acc.1
    · simp only [if_pos h1]
      exact ih acc (fun x hx => hpend x (List.mem_cons_of_mem _ hx)) hnd hmm2 hfalse
    · by_cases h2 : s.nodes.all (fun p => (dictLookupN b.nodes p.1).isSome)
      · by_cases h3 : s.nodes.all (fun p => dictLookupN b.nodes p.1 = some p.2)
        · simp only [if_neg h1, if_pos h2, if_pos h3]
          have hnd2 : (acc.1 ++ [s.rel]).Nodup := by
            simp only [List.nodup_append, List.nodup_singleton, true_and]
            exact ⟨hnd, fun r hr => by
              simp only [List.mem_singleton]
              intro hrr
              exact h1 (hrr ▸ hr)⟩
          have hmm3 : ∀ r ∈ acc.1 ++ [s.rel], r ∈ sets.map RSet.rel := by
            intro r hr
            rcases List.mem_append.mp hr with h | h
            · exact hmm2 r h
            · simp only [List.mem_singleton] at h
              exact h ▸ List.mem_map_of_mem RSet.rel (hpend s (List.mem_cons_self _ _))
          have hlt := hsmall (acc.1 ++ [s.rel]) hnd2 hmm3
          have hflag : (acc.2 || decide ((acc.1 ++ [s.rel]).length = relCount)) = false := by
            rw [hfalse]
            simp only [Bool.false_or, decide_eq_false_iff_not]
            omega
          refine ih _ (fun x hx => hpend x (List.mem_cons_of_mem _ hx)) hnd2 hmm3 ?_
          exact hflag
        · simp only [if_neg h1, if_pos h2, if_neg h3]
          exact ih acc (fun x hx => hpend x (List.mem_cons_of_mem _ hx)) hnd hmm2 hfalse
      · simp only [if_neg h1, if_neg h2]
        exact ih acc (fun x hx => hpend x (List.mem_cons_of_mem _ hx)) hnd hmm2 hfalse

/-- With too few distinct relations among the sets, no bin is ever collected
as a solution. -/
theorem collectSolutions_empty (sets : List RSet) (nodeCount relCount : Nat)
    (bins : List BinE) (heap : List (List MatchE))
    (hb : ∀ b ∈ bins, BinInv (fun r => r ∈ sets.map RSet.rel) heap b)
    (hsmall : ∀ rels : List SRel, rels.Nodup → (∀ r ∈ rels, r ∈ sets.map RSet.rel) →
      rels.length < relCount) :
    collectSolutions sets nodeCount relCount bins = [] := by
  unfold collectSolutions
  apply foldl_const
  intro acc b hbb
  have hinv := hb b hbb
  by_cases hn : b.nodes.length = nodeCount
  · rw [if_pos hn]
    have hlt := hsmall b.rels hinv.rels_nodup hinv.rels_avail
    rw [if_neg (by omega : ¬ b.rels.length = relCount)]
    have hhit := solutionScan_no_hit sets relCount b hinv.rels_nodup hinv.rels_avail hsmall
    rcases hsc : solutionScan sets relCount b with ⟨b2, hitv⟩
    rw [hsc] at hhit
    simp only at hhit
    subst hhit
    simp
  · rw [if_neg hn]

/-- `merge_sets` returns no bins when the sets' distinct relations cannot
reach `rel_count`. -/
theorem mergeSets_empty (sets : List RSet) (nodeCount relCount : Nat)
    (hwf : ∀ s ∈ sets, WFSet s)
    (hsmall : ∀ rels : List SRel, rels.Nodup → (∀ r ∈ rels, r ∈ sets.map RSet.rel) →
      rels.length < relCount) :
    (mergeSets sets nodeCount relCount).2 = [] := by
  unfold mergeSets
  have hsol := collectSolutions_empty sets nodeCount relCount
    (sets.foldl seedStep ⟨[], []⟩).bins (sets.foldl seedStep ⟨[], []⟩).heap
    (seeds_inv sets hwf) hsmall
  simp only [hsol]
  simp [pruneMergedBins]

/-- C2: if any one of a rule's relations yields zero pairwise bindings when
it is evaluated (the relations before it having evaluated normally), the rule
fires zero times on the sentence: the transformation leaves every token and
annotation untouched — or, should a later relation raise, the run dies
without any action having mutated anything. -/
theorem c2_zero_hits_no_fire (st : SentState) (t : TransE)
    (rels1 rels2 : List SRel) (r : SRel) (sets1 : List RSet)
    (nm1 nm2 : Nat → List MatchE) (s0 : List RSet)
    (hsplit : t.relations = rels1 ++ r :: rels2)
    (hpre : relLoop st.toks rels1 (matchPhase t.definitions st.toks) [] = some (sets1, nm1))
    (hzero : matchesRelation st.toks nm1 r = some (s0, nm2, 0)) :
    execTransformation st t = .ok (st, false) ∨
      ∃ e, execTransformation st t = .error e := by
  have hfull : relLoop st.toks t.relations (matchPhase t.definitions st.toks) [] =
      relLoop st.toks rels2 nm2 [] := by
    rw [hsplit, relLoop_append, hpre]
    show relLoop st.toks (r :: rels2) nm1 sets1 = _
    rw [relLoop, hzero]
    simp
  simp only [execTransformation]
  rw [hfull]
  rcases hrest : relLoop st.toks rels2 nm2 [] with _ | p
  · exact .inr ⟨"exception", rfl⟩
  · obtain ⟨setsF, nmF⟩ := p
    left
    have hwfnm1 : NMwf nm1 := (relLoop_mem st.toks rels1 _ [] sets1 nm1
      (matchPhase_wf t.definitions st.toks) hpre).2
    have hwfnm2 : NMwf nm2 := (matchesRelation_shape hwfnm1 hzero).2
    obtain ⟨hmem, -⟩ := relLoop_mem st.toks rels2 nm2 [] setsF nmF hwfnm2 hrest
    have hwfF : ∀ s ∈ setsF, WFSet s := by
      intro s hs
      rcases hmem s hs with h | ⟨hwf, -⟩
      · cases h
      · exact hwf
    have hrelF : ∀ x ∈ setsF.map RSet.rel, x ∈ rels2 := by
      intro x hx
      simp only [List.mem_map] at hx
      obtain ⟨s, hsm, rfl⟩ := hx
      rcases hmem s hsm with h | ⟨-, hr⟩
      · cases h
      · exact hr
    have hsmall : ∀ rels : List SRel, rels.Nodup →
        (∀ x ∈ rels, x ∈ setsF.map RSet.rel) → rels.length < t.relations.length := by
      intro rels hnd hsub
      have h1 : rels.toFinset.card = rels.length := List.toFinset_card_of_nodup hnd
      have h2 : rels.toFinset ⊆ rels2.toFinset := by
        intro x hx
        rw [List.mem_toFinset] at hx ⊢
        exact hrelF x (hsub x hx)
      have h3 : rels.toFinset.card ≤ rels2.toFinset.card := Finset.card_le_card h2
      have h4 : rels2.toFinset.card ≤ rels2.length := List.toFinset_card_le rels2
      rw [hsplit]
      simp only [List.length_append, List.length_cons]
      omega
    have hms := mergeSets_empty setsF t.definitions.length t.relations.length hwfF hsmall
    simp [hms, toBindings]

/-- Witness for C2: a two-relation rule whose first relation (distance 5)
yields no pair on the two-token sentence. -/
theorem c2_zero_hits_no_fire_witness :
    execTransformation c2St c2Trans = .ok (c2St, false) ∨
      ∃ e, execTransformation c2St c2Trans = .error e := by
  exact c2_zero_hits_no_fire c2St c2Trans [] [SRel.brel 1 2 ".1"] (SRel.brel 1 2 ".5")
    [] (matchPhase c2Trans.definitions c2St.toks)
    (pruneNM (matchPhase c2Trans.definitions c2St.toks) 1 2 [] []) []
    rfl rfl rfl

/-! ### Super-token preservation (C3) -/

/-- A pattern containing a character absent from the input is never found, so
`str.replace` is the identity. -/
theorem pyReplaceAux_no_occ {pat rep : List Char} {c0 : Char} (hc : c0 ∈ pat) :
    ∀ (fuel : Nat) (l : List Char), c0 ∉ l → pyReplaceAux pat rep fuel l = l := by
  intro fuel
  induction fuel with
  | zero => intro l _; rfl
  | succ n ih =>
    intro l hl
    cases l with
    | nil => rfl
    | cons c rest =>
      have hnot : ¬ (pat ≠ [] ∧ pat.isPrefixOf (c :: rest)) := by
        rintro ⟨-, hpre⟩
        exact hl ((List.isPrefixOf_iff_prefix.mp hpre).subset hc)
      rw [pyReplaceAux, if_neg hnot, ih rest (fun h => hl (List.mem_cons_of_mem _ h))]

theorem pyReplace_dot0_id {s : String} (h : '.' ∉ s.toList) :
    pyReplace s ".0" "" = s := by
  unfold pyReplace pyReplaceL
  rw [pyReplaceAux_no_occ (by decide : '.' ∈ ".0".toList) _ _ h]
  cases s
  rfl

/-- Single-character substring containment is list membership. -/
theorem listInfix_singleton {c : Char} : ∀ l : List Char, listInfix [c] l = true ↔ c ∈ l := by
  intro l
  induction l with
  | nil => simp [listInfix]
  | cons d rest ih =>
    rw [listInfix]
    simp only [Bool.or_eq_true, ih, List.isPrefixOf, Bool.and_eq_true, beq_iff_eq,
      List.mem_cons]
    constructor
    · rintro (⟨rfl, -⟩ | hm)
      · exact .inl rfl
      · exact .inr hm
    · rintro (rfl | hm)
      · exact .inl ⟨rfl, by simp [List.isPrefixOf]⟩
      · exact .inr hm

/-- Splitting a list at the end of its matching prefix. -/
theorem takeWhile_drop_split (p : Char → Bool) : ∀ l : List Char,
    l.takeWhile p ++ l.drop (l.takeWhile p).length = l := by
  intro l
  induction l with
  | nil => rfl
  | cons c rest ih =>
    rw [List.takeWhile_cons]
    by_cases hp : p c
    · rw [if_pos hp]
      simp only [List.length_cons, List.cons_append, List.drop_succ_cons]
      rw [ih]
    · rw [if_neg hp]
      simp

/-- A `\d+-\d+` id holds a dash and no dot. -/
theorem digitsDashDigits_chars {s : String} (h : digitsDashDigits s = true) :
    '-' ∈ s.toList ∧ '.' ∉ s.toList := by
  unfold digitsDashDigits at h
  split at h
  · rename_i r2 heq
    have hsp : s.toList = s.toList.takeWhile (fun c => c.isDigit) ++ ('-' :: r2) := by
      conv_lhs => rw [← takeWhile_drop_split (fun c => c.isDigit) s.toList]
      rw [heq]
    constructor
    · rw [hsp]
      exact List.mem_append_right _ (List.mem_cons_self _ _)
    · rw [hsp]
      intro hm
      rcases List.mem_append.mp hm with h1 | h1
      · have hd1 := List.mem_takeWhile_imp h1
        simp at hd1
      · rcases List.mem_cons.mp h1 with h2 | h2
        · exact absurd h2 (by decide)
        · have hall : r2.all (fun c => c.isDigit) = true := by
            simp only [Bool.and_eq_true] at h
            exact h.2
          rw [List.all_eq_true] at hall
          exact absurd (hall _ h2) (by decide)
  · exact Bool.noConfusion h

/-- Super-tokens are never offered as match candidates: no match produced by
the match phase points at a super-token index (lines 303-304). -/
theorem matchPhase_not_super {toks : List Tok} {i : Nat} {t : Tok}
    (hi : toks[i]? = some t) (hsup : t.is_super_tok = true) :
    ∀ (defs : List DefMatcherE) (n : Nat) (m : MatchE),
      m ∈ matchPhase defs toks n → m.tokIdx ≠ i := by
  intro defs n m hm he
  simp only [matchPhase, List.mem_flatten, List.mem_map] at hm
  obtain ⟨l, ⟨dm, hdm, rfl⟩, hml⟩ := hm
  simp only [matcherHits, List.mem_filterMap] at hml
  obtain ⟨j, -, hj⟩ := hml
  rcases h1 : toks[j]? with _ | t2 <;> rw [h1] at hj
  · cases hj
  · by_cases hsup2 : t2.is_super_tok
    · simp [hsup2] at hj
    · simp only [hsup2, Bool.false_eq_true, if_false] at hj
      rcases h2 : dm.matchTok t2 with _ | gs <;> rw [h2] at hj
      · cases hj
      · have hji : j = i := by
          have hme := Option.some.inj hj
          rw [← hme] at he
          exact he
        rw [hji, hi] at h1
        rw [Option.some.inj h1] at hsup
        exact hsup2 hsup

/-- The serialized row of a super-token whose id holds no dot: id verbatim,
head with `".0"` occurrences deleted. -/
theorem serializeTokFields_super {floatSub : String → Nat → String} {mode8 : Bool}
    {off : Nat} {t : Tok} (hsup : t.is_super_tok = true)
    (hnodot : '.' ∉ t.id.toList) :
    serializeTokFields floatSub mode8 off t =
      [t.id, t.text, t.lemm, t.pos, t.cpos, t.morph, pyReplace t.head ".0" "", t.func] ++
        (if mode8 then [] else [t.head2, t.func2]) := by
  unfold serializeTokFields
  simp only [hsup, if_true]
  rw [pyReplace_dot0_id hnodot]
  have hnd : pyInStr "." t.id = false := by
    unfold pyInStr
    rw [Bool.eq_false_iff]
    intro hcon
    exact hnodot ((listInfix_singleton _).mp hcon)
  simp [hnd]

/-- A dash in the first column makes the reader store id and head verbatim
and flag the token as a super-token (lines 722-725). -/
theorem readTokLine_super {floatAdd : String → Nat → String} {off : Nat}
    {cols : List String} {c0 c6 : String} {t : Tok} {sup : Bool}
    (h0 : cols[0]? = some c0) (h6 : cols[6]? = some c6)
    (hdash : pyInStr "-" c0 = true)
    (hread : readTokLine floatAdd off cols = some (t, sup)) :
    t.id = c0 ∧ t.head = c6 ∧ t.is_super_tok = true := by
  rcases h1 : cols[1]? with _ | c1 <;>
    rcases h2 : cols[2]? with _ | c2 <;>
    rcases h3 : cols[3]? with _ | c3 <;>
    rcases h4 : cols[4]? with _ | c4 <;>
    rcases h5 : cols[5]? with _ | c5 <;>
    rcases h7 : cols[7]? with _ | c7 <;>
    simp only [readTokLine, h0, h1, h2, h3, h4, h5, h6, h7, reduceCtorEq] at hread
  rcases hf2eq : (if cols.length > 8 then
      match cols[8]?, cols[9]? with
      | some c8, some c9 => some (c8, c9)
      | _, _ => none
    else some (c6, c7)) with _ | hf <;>
    simp only [hf2eq, reduceCtorEq] at hread
  injection hread with hpair
  rw [Prod.mk.injEq] at hpair
  obtain ⟨ht, -⟩ := hpair
  rw [← ht]
  refine ⟨by simp [hdash], by simp [hdash], by simp [hdash]⟩

/-- C3 (amended): a token row whose first column matches `\d+-\d+` is read as
a super-token storing its id and head columns verbatim; it is never offered
as a match candidate to any rule; and at serialization its id column is
character-identical to the input while its head column is the input head with
every occurrence of `".0"` deleted — hence character-identical exactly when
the head contains no `".0"` (in particular for the conventional `"_"`). -/
theorem c3_super_token_amended (floatAdd floatSub : String → Nat → String)
    (mode8 : Bool) (offR offS : Nat) (cols : List String) (c0 c6 : String)
    (t : Tok) (sup : Bool) (toks : List Tok) (i : Nat)
    (h0 : cols[0]? = some c0) (h6 : cols[6]? = some c6)
    (hshape : digitsDashDigits c0 = true)
    (hread : readTokLine floatAdd offR cols = some (t, sup))
    (hi : toks[i]? = some t) :
    t.id = c0 ∧ t.head = c6 ∧ t.is_super_tok = true ∧
    (∀ (defs : List DefMatcherE) (n : Nat) (m : MatchE),
      m ∈ matchPhase defs toks n → m.tokIdx ≠ i) ∧
    serializeTokFields floatSub mode8 offS t =
      [c0, t.text, t.lemm, t.pos, t.cpos, t.morph, pyReplace c6 ".0" "", t.func] ++
        (if mode8 then [] else [t.head2, t.func2]) ∧
    ('.' ∉ c6.toList → pyReplace c6 ".0" "" = c6) := by
  obtain ⟨hdash, hdot⟩ := digitsDashDigits_chars hshape
  have hsupStr : pyInStr "-" c0 = true := (listInfix_singleton c0.toList).mpr hdash
  obtain ⟨hid, hhead, hsup⟩ := readTokLine_super h0 h6 hsupStr hread
  refine ⟨hid, hhead, hsup, matchPhase_not_super hi hsup, ?_,
    fun hd6 => pyReplace_dot0_id hd6⟩
  rw [serializeTokFields_super hsup (hid.symm ▸ hdot), hid, hhead]

/-- C3 counterexample: the super-token row with head column `"2.0"` is read
verbatim, but serializes its head column as `"2"`: the output head is not
character-identical to the input's. -/
theorem c3_counterexample :
    readTokLine (fun s _ => s) 0 c3Cols = some (c3Tok, true) ∧
    c3Tok.is_super_tok = true ∧ c3Tok.head = "2.0" ∧
    digitsDashDigits "1-2" = true ∧
    serializeTokFields (fun s _ => s) false 0 c3Tok =
      ["1-2", "ab", "_", "_", "_", "_", "2", "_", "_", "_"] ∧
    "2" ≠ "2.0" := by
  exact ⟨by decide, rfl, rfl, by decide, by decide, by decide⟩

/-- Witness for the amended C3 theorem on the counterexample row. -/
theorem c3_super_token_amended_witness :
    c3Tok.id = "1-2" ∧ c3Tok.head = "2.0" ∧ c3Tok.is_super_tok = true ∧
    (∀ (defs : List DefMatcherE) (n : Nat) (m : MatchE),
      m ∈ matchPhase defs [c3Tok] n → m.tokIdx ≠ 0) ∧
    serializeTokFields (fun s _ => s) false 0 c3Tok =
      ["1-2", c3Tok.text, c3Tok.lemm, c3Tok.pos, c3Tok.cpos, c3Tok.morph,
        pyReplace "2.0" ".0" "", c3Tok.func] ++
        (if false then [] else [c3Tok.head2, c3Tok.func2]) ∧
    ('.' ∉ "2.0".toList → pyReplace "2.0" ".0" "" = "2.0") :=
  c3_super_token_amended (fun s _ => s) (fun s _ => s) false 0 0 c3Cols "1-2" "2.0"
    c3Tok true [c3Tok] 0 rfl rfl (by decide) rfl rfl

/-! ### The sentence counter (C6) and sentence termination (C8) -/

/-- C6 (code bug): the sentence counter never advances.  `Sentence.__init__`
discards its `sent_num` argument — line 66 stores the literal 0 — so the
counter passed at each construction site (1, then previous+1) is lost, and
with `sent_id` enabled every sentence of a document is followed by
`# sent_id = <doc>-0`.  On the two-sentence input both emitted sent_id
comments read `# sent_id = file-0` instead of `-1` and `-2`. -/
theorem c6_sent_num_stuck :
    (∀ n : Nat, sentenceInitNum n = 0) ∧
    runDepedit intFloatAdd intFloatSub [] true false "file" c6Lines =
      .ok ["1\ta\t_\t_\t_\t_\t0\tr\t_\t_", "# sent_id = file-0", "",
        "1\tb\t_\t_\t_\t_\t0\tr\t_\t_", "# sent_id = file-0"] :=
  ⟨fun _ => rfl, rfl⟩

/-- C8 counterexample: a comment line between the two token lines of a
sentence terminates it — the adjacency rule `text=/a/;text=/b/ #1.1#2
#2:func=X` fails to fire across the comment (the func column stays `r`),
while on the same sentence without the comment it fires (`X`). -/
theorem c8_counterexample :
    runDepedit intFloatAdd intFloatSub [c8Trans] false false "f" c8LinesSplit =
      .ok ["1\ta\t_\t_\t_\t_\t0\tr\t_\t_", "# c", "2\tb\t_\t_\t_\t_\t1\tr\t_\t_"] ∧
    runDepedit intFloatAdd intFloatSub [c8Trans] false false "f" c8LinesJoint =
      .ok ["1\ta\t_\t_\t_\t_\t0\tr\t_\t_", "2\tb\t_\t_\t_\t_\t1\tX\t_\t_"] :=
  ⟨rfl, rfl⟩

/-- C8 (amended): the flush test precedes comment handling, so ANY tab-less
line — a comment included — terminates an open sentence; the comment line is
still passed through to the output afterwards.  Tokens before and after an
interior comment therefore belong to different sentences. -/
theorem c8_comment_flushes (floatAdd floatSub : String → Nat → String)
    (trans : List TransE) (sentId : Bool) (doc : String) (st : DriverSt)
    (line : String) (hopen : st.sentlength ≠ 0)
    (hnotab : pyInStr "\t" (pyStrip line) = false)
    (hcomment : pyStartsWith (pyStrip line) "#" = true) :
    driverStep floatAdd floatSub trans sentId doc st line =
      (driverFlush floatSub trans sentId doc st).map
        (fun s2 => { driverResets s2 with
          output := (driverResets s2).output ++ [pyStrip line] }) := by
  simp only [driverStep]
  rw [if_pos (⟨hopen, hnotab⟩ : st.sentlength ≠ 0 ∧ pyInStr "\t" (pyStrip line) = false)]
  rcases hf : driverFlush floatSub trans sentId doc st with e | s2 <;>
    simp [Except.map, hcomment]

/-- Witness for the amended C8 theorem: one open token, a comment line. -/
theorem c8_comment_flushes_witness :
    driverStep intFloatAdd intFloatSub [] false "f"
        ⟨0, 0, 1, 0, 0, false, [exTok "1.0" "a"], []⟩ "# note" =
      (driverFlush intFloatSub [] false "f"
          ⟨0, 0, 1, 0, 0, false, [exTok "1.0" "a"], []⟩).map
        (fun s2 => { driverResets s2 with
          output := (driverResets s2).output ++ [pyStrip "# note"] }) :=
  c8_comment_flushes intFloatAdd intFloatSub [] false "f"
    ⟨0, 0, 1, 0, 0, false, [exTok "1.0" "a"], []⟩ "# note"
    (by decide) (by decide) (by decide)

/-! ### Rule-file loading diagnostics (C7) and the empty-pattern crash (C10) -/

/-- A line with fewer than three tab-separated parts makes
`parse_transformation` return `None`. -/
theorem parse_short (l : String) (hl : (pySplit l '\t').length < 3) :
    parseTransformation l = .ok none := by
  unfold parseTransformation
  rcases hsp : pySplit l '\t' with _ | ⟨x, _ | ⟨y, _ | ⟨z, rest⟩⟩⟩
  · rfl
  · rfl
  · rfl
  · exfalso
    rw [hsp] at hl
    simp only [List.length_cons] at hl
    omega

/-- Building the kept lines' transformations stops at the first line with a
bad tab count: whatever follows it, the whole construction exits with that
line's malformed-instruction message. -/
theorem initMapM_break (pre : List (Nat × String)) (n : Nat) (l : String)
    (post : List (Nat × String))
    (hpre : ∀ q ∈ pre, ∃ p, parseTransformation q.2 = Except.ok (some p))
    (hl : (pySplit l '\t').length < 3) :
    (pre ++ (n, l) :: post).mapM (fun p => transformationInit p.2 p.1) =
      Except.error (Abort.exited (malformedMsg n)) := by
  induction pre with
  | nil =>
    simp only [List.nil_append, List.mapM_cons, transformationInit, parse_short l hl]
    rfl
  | cons q rest ih =>
    obtain ⟨p, hp⟩ := hpre q (List.mem_cons_self _ _)
    have hq : transformationInit q.2 q.1 = Except.ok (p, q.1) := by
      unfold transformationInit
      rw [hp]
    simp only [List.cons_append, List.mapM_cons]
    rw [hq, ih (fun x hx => hpre x (List.mem_cons_of_mem _ hx))]
    rfl

/-- The report fold only ever appends on the right. -/
theorem reportFold_ext (trs : List (PTrans × Nat)) (acc : String) :
    ∃ ext, trs.foldl (fun acc tp =>
        if validateT tp.1 = "" then acc
        else acc ++ ("On line " ++ toString tp.2 ++ ": " ++ validateT tp.1)) acc =
      acc ++ ext := by
  induction trs generalizing acc with
  | nil => exact ⟨"", by simp⟩
  | cons tp rest ih =>
    simp only [List.foldl_cons]
    by_cases hv : validateT tp.1 = ""
    · rw [if_pos hv]
      exact ih acc
    · rw [if_neg hv]
      obtain ⟨ext, hext⟩ := ih (acc ++ ("On line " ++ toString tp.2 ++ ": " ++ validateT tp.1))
      refine ⟨("On line " ++ toString tp.2 ++ ": " ++ validateT tp.1) ++ ext, ?_⟩
      rw [hext, String.append_assoc]

/-- One invalid transformation anywhere makes the accumulated report
nonempty. -/
theorem reportOf_ne (trs : List (PTrans × Nat)) (tp : PTrans × Nat)
    (hm : tp ∈ trs) (hv : validateT tp.1 ≠ "") : reportOf trs ≠ "" := by
  unfold reportOf
  obtain ⟨l1, l2, rfl⟩ := List.append_of_mem hm
  rw [List.foldl_append, List.foldl_cons, if_neg hv]
  obtain ⟨ext, hext⟩ := reportFold_ext l2 _
  rw [hext]
  intro hcon
  have hlen := congrArg String.length hcon
  simp only [String.length_append] at hlen
  have h8 : ("On line ").length = 8 := rfl
  have h0 : ("" : String).length = 0 := rfl
  omega

/-- C7 (amended): wrong-tab-count errors are NOT accumulated — the engine
exits at the first offending line with only that line's diagnostic, whatever
errors later lines hold; only when every kept line parses are the validation
errors of all rules accumulated, and then the run is all-or-nothing: it
returns all transformations when every report is empty and otherwise exits
with the single combined report, which is nonempty as soon as any one rule
is invalid. -/
theorem c7_load_errors_amended :
    (∀ (lines : List String) (pre post : List (Nat × String)) (n : Nat) (l : String),
      keptLines lines = pre ++ (n, l) :: post →
      (∀ q ∈ pre, ∃ p, parseTransformation q.2 = Except.ok (some p)) →
      (pySplit l '\t').length < 3 →
      readConfig lines = .error (.exited (malformedMsg n))) ∧
    (∀ (lines : List String) (trs : List (PTrans × Nat)),
      (keptLines lines).mapM (fun p => transformationInit p.2 p.1) = Except.ok trs →
      ((∀ tp ∈ trs, validateT tp.1 = "") → readConfig lines = .ok trs) ∧
      (reportOf trs ≠ "" →
        readConfig lines =
          .error (.exited ("Depedit says: error in configuration file\n\n" ++
            reportOf trs)))) ∧
    (∀ (trs : List (PTrans × Nat)) (tp : PTrans × Nat),
      tp ∈ trs → validateT tp.1 ≠ "" → reportOf trs ≠ "") := by
  refine ⟨?_, ?_, reportOf_ne⟩
  · intro lines pre post n l hkept hpre hl
    unfold readConfig
    rw [hkept]
    rw [initMapM_break pre n l post hpre hl]
  · intro lines trs hmapm
    constructor
    · intro hall
      have hrep : reportOf trs = "" := by
        unfold reportOf
        apply foldl_const
        intro acc tp htp
        rw [if_pos (hall tp htp)]
      simp only [readConfig, hmapm]
      simp [hrep]
    · intro hne
      simp only [readConfig, hmapm]
      rw [if_neg hne]

/-- C7 counterexample: a rule file whose first line has a bad tab count and
whose second line has an invalid node field exits with only the first line's
malformed-instruction message; the second line's validation diagnostic — which
validate would produce — is absent from it. -/
theorem c7_counterexample :
    readConfig ["badline", "foo=/x/\tnone\tlast"] =
      .error (.exited (malformedMsg 1)) ∧
    (parseTransformation "foo=/x/\tnone\tlast").map (Option.map validateT) =
      .ok (some "Invalid node definition in column 1: foo=/x/") ∧
    pyInStr "Invalid node definition" (malformedMsg 1) = false :=
  ⟨rfl, rfl, by decide⟩

/-- Witness for the amended C7 theorem on the counterexample rule file. -/
theorem c7_load_errors_amended_witness :
    readConfig ["badline", "foo=/x/\tnone\tlast"] =
      .error (.exited (malformedMsg 1)) := by
  refine c7_load_errors_amended.1 ["badline", "foo=/x/\tnone\tlast"]
    [] [(2, "foo=/x/\tnone\tlast")] 1 "badline" (by decide) ?_ (by decide)
  intro q hq
  exact absurd hq (List.not_mem_nil q)

/-- C10: for every canonical field, the rule `field=//<TAB>none<TAB>last`
passes the node validation regex (`=/[^/=]*/` accepts an empty pattern), yet
constructing the Transformation raises an uncaught IndexError at the
anchoring check `def_value[0]` — before validation could report anything, and
the whole rule-file load dies with that exception. -/
theorem c10_empty_pattern_index_error (f : String) (hf : f ∈ fieldsAlt) :
    nodeCritValid (f ++ "=//") = true ∧
    parseTransformation (f ++ "=//\tnone\tlast") = .error "IndexError" ∧
    (∀ line : Nat,
      transformationInit (f ++ "=//\tnone\tlast") line = .error (.raised "IndexError")) ∧
    readConfig [f ++ "=//\tnone\tlast"] = .error (.raised "IndexError") := by
  have h1 : nodeCritValid (f ++ "=//") = true ∧
      parseTransformation (f ++ "=//\tnone\tlast") = .error "IndexError" ∧
      readConfig [f ++ "=//\tnone\tlast"] = .error (.raised "IndexError") := by
    simp only [fieldsAlt, List.mem_cons, List.not_mem_nil, or_false] at hf
    rcases hf with rfl|rfl|rfl|rfl|rfl|rfl|rfl|rfl|rfl|rfl|rfl|rfl|rfl|rfl|rfl|rfl|rfl <;>
      exact ⟨by decide, by rfl, by rfl⟩
  refine ⟨h1.1, h1.2.1, ?_, h1.2.2⟩
  intro line
  unfold transformationInit
  rw [h1.2.1]

/-- Witness for C10 at the field `text`. -/
theorem c10_empty_pattern_index_error_witness :
    "text" ∈ fieldsAlt ∧
    (nodeCritValid ("text" ++ "=//") = true ∧
     parseTransformation ("text" ++ "=//\tnone\tlast") = .error "IndexError" ∧
     (∀ line : Nat,
       transformationInit ("text" ++ "=//\tnone\tlast") line =
         .error (.raised "IndexError")) ∧
     readConfig [("text" ++ "=//\tnone\tlast")] = .error (.raised "IndexError")) :=
  ⟨by decide, c10_empty_pattern_index_error "text" (by decide)⟩

end DepEdit
